import Mathlib

/-!
# FFmpegPlayer: document layer and decoder interface

A shallow embedding of `src/Player/PlayerDoc.cpp` (the `CPlayerDoc` document:
SubRip loading, subtitle lookup, frame-position events, open and close) and of
the inline members of `src/video/ffmpegdecoder.h`, followed by models of the
playback controller and of the bounded packet queue, whose implementation files
are not part of the sources at hand.

Conventions

* `double` is IEEE 754 binary64 with round to nearest, ties to even (`Double`,
  `roundDouble`); `int` is a 32 bit two's complement integer, represented as an
  `Int` kept in range by `toInt32`; `int64_t` and `long long` are `Int`.
* Where C or C++ leave a result undefined and implementations differ, the
  result is a parameter: the value `sscanf` stores for a digit string outside
  the range of `int` (`overflow`), and what the interval map returns for a key
  that is not a number (`unordered`).
* A `std::ifstream` is the list of the lines that successive `std::getline`
  calls deliver; a stream that failed to open is `none`.
* `std::string` is `String`.
-/

namespace FFmpegPlayer

/-! ## C library: `sscanf` with the directives used by the SubRip reader -/

/-- The `isspace` classification of the C locale. -/
def isspace (c : Char) : Bool :=
  c = ' ' || c = '\t' || c = '\n' || c = Char.ofNat 11 || c = Char.ofNat 12 || c = '\r'

/-- Skips leading white space, as `%d` and a white-space directive do. -/
def skipSpace : List Char → List Char
  | [] => []
  | c :: cs => if isspace c then skipSpace cs else c :: cs

/-- Value of a 32 bit two's complement `int` holding the integer `z`. -/
def toInt32 (z : Int) : Int := (z + 2147483648) % 4294967296 - 2147483648

/-- Range of `int`. -/
def InInt32 (z : Int) : Prop := -2147483648 ≤ z ∧ z ≤ 2147483647

instance (z : Int) : Decidable (InInt32 z) := by unfold InInt32; infer_instance

/-- Consumes the longest run of decimal digits, accumulating its value. -/
def scanDigits : Nat → List Char → Nat × List Char
  | acc, [] => (acc, [])
  | acc, c :: cs =>
    if c.isDigit then scanDigits (10 * acc + (c.toNat - '0'.toNat)) cs else (acc, c :: cs)

/-- A non-empty run of decimal digits; `none` is a matching failure. -/
def scanUnsigned : List Char → Option (Nat × List Char)
  | [] => none
  | c :: cs => if c.isDigit then some (scanDigits 0 (c :: cs)) else none

/-- The `int` that `%d` stores for the converted value `v`.  A value in the range
of `int` is stored as it is.  For a value outside it the C standard leaves the
behaviour undefined and C libraries differ (saturation, truncation); the `int`
stored then is given by the parameter `overflow`. -/
def storeInt (overflow : Int → Int) (v : Int) : Int :=
  if InInt32 v then v else toInt32 (overflow v)

/-- The `%d` conversion: white space, an optional sign, at least one digit. -/
def scanInt (overflow : Int → Int) (input : List Char) : Option (Int × List Char) :=
  match skipSpace input with
  | '-' :: cs => (scanUnsigned cs).map fun r => (storeInt overflow (-(r.1 : Int)), r.2)
  | '+' :: cs => (scanUnsigned cs).map fun r => (storeInt overflow (r.1 : Int), r.2)
  | cs => (scanUnsigned cs).map fun r => (storeInt overflow (r.1 : Int), r.2)

/-- The directives of a `scanf` format string that `PlayerDoc.cpp` uses. -/
inductive Directive where
  | int
  | space
  | lit (c : Char)
deriving DecidableEq, Repr

/-- The format `"%d:%d:%d,%d --> %d:%d:%d,%d"`. -/
def timeFormat : List Directive :=
  [.int, .lit ':', .int, .lit ':', .int, .lit ',', .int,
   .space, .lit '-', .lit '-', .lit '>', .space,
   .int, .lit ':', .int, .lit ':', .int, .lit ',', .int]

/-- The values `sscanf` assigns, in order, up to the first directive that fails.
The return value of `sscanf` is the length of this list (an input failure
before the first conversion, reported as `EOF`, also assigns nothing). -/
def sscanf (overflow : Int → Int) : List Directive → List Char → List Int
  | [], _ => []
  | .int :: fmt, input =>
    match scanInt overflow input with
    | some (v, rest) => v :: sscanf overflow fmt rest
    | none => []
  | .space :: fmt, input => sscanf overflow fmt (skipSpace input)
  | .lit c :: fmt, input =>
    match input with
    | d :: rest => if d = c then sscanf overflow fmt rest else []
    | [] => []

/-! ## IEEE 754 binary64 arithmetic (`double`)

Finite values are the rationals `m * 2 ^ e` with `|m| < 2 ^ 53` and
`-1074 ≤ e ≤ 971`.  Every operation returns the correctly rounded exact result
(round to nearest, ties to even).  Zero carries no sign: the sign of a zero
shows only in a division by it, and the divisors in the embedded code are
converted from integers, whose zero is positive. -/

/-- A `double`: a finite value, an infinity, or not a number. -/
inductive Double where
  | finite (value : ℚ)
  | infinite (negative : Bool)
  | nan
deriving DecidableEq

/-- The power `2 ^ k` for an integer exponent. -/
def pow2 (k : Int) : ℚ := (2 : ℚ) ^ k

/-- The number of binary digits of `n`, for `n ≤ fuel`. -/
def bitLength : Nat → Nat → Nat
  | 0, _ => 0
  | fuel + 1, n => if n = 0 then 0 else bitLength fuel (n / 2) + 1

/-- The integer `k` with `2 ^ k ≤ |x| < 2 ^ (k + 1)`, for `x ≠ 0`: the
difference of the digit counts of numerator and denominator, or one less. -/
def ilog2 (x : ℚ) : Int :=
  let k : Int := (bitLength x.num.natAbs x.num.natAbs : Int) - (bitLength x.den x.den : Int)
  if pow2 k ≤ |x| then k else k - 1

/-- The integer nearest to `s`, the even one of the two when `s` is half way. -/
def roundHalfEven (s : ℚ) : Int :=
  if s - ⌊s⌋ < 1 / 2 then ⌊s⌋
  else if 1 / 2 < s - ⌊s⌋ then ⌊s⌋ + 1
  else if ⌊s⌋ % 2 = 0 then ⌊s⌋ else ⌊s⌋ + 1

/-- The `double` nearest to the rational `x`: the significand keeps 53 bits, the
unit in the last place is at least `2 ^ -1074` (subnormal range), and a rounded
magnitude of `2 ^ 1024` or more overflows to an infinity. -/
def roundDouble (x : ℚ) : Double :=
  if x = 0 then .finite 0
  else
    let e : Int := max (ilog2 x - 52) (-1074)
    let r : ℚ := (roundHalfEven (x / pow2 e) : ℚ) * pow2 e
    if pow2 1024 ≤ |r| then .infinite (decide (x < 0)) else .finite r

/-- Conversion of an integer to `double`. -/
def Double.ofInt (z : Int) : Double := roundDouble (z : ℚ)

/-- Addition of `double` values. -/
def Double.add : Double → Double → Double
  | .finite a, .finite b => roundDouble (a + b)
  | .finite _, .infinite s => .infinite s
  | .infinite s, .finite _ => .infinite s
  | .infinite s, .infinite t => if s = t then .infinite s else .nan
  | _, _ => .nan

/-- Multiplication of `double` values. -/
def Double.mul : Double → Double → Double
  | .finite a, .finite b => roundDouble (a * b)
  | .finite a, .infinite s => if a = 0 then .nan else .infinite (xor s (decide (a < 0)))
  | .infinite s, .finite b => if b = 0 then .nan else .infinite (xor s (decide (b < 0)))
  | .infinite s, .infinite t => .infinite (xor s t)
  | _, _ => .nan

/-- Division of `double` values. -/
def Double.div : Double → Double → Double
  | .finite a, .finite b =>
    if b = 0 then (if a = 0 then .nan else .infinite (decide (a < 0))) else roundDouble (a / b)
  | .finite _, .infinite _ => .finite 0
  | .infinite s, .finite b => .infinite (xor s (decide (b < 0)))
  | _, _ => .nan

/-- The comparison `<` of `double` values; false when an operand is not a
number. -/
def Double.lt : Double → Double → Prop
  | .finite a, .finite b => a < b
  | .finite _, .infinite s => s = false
  | .infinite s, .finite _ => s = true
  | .infinite s, .infinite t => s = true ∧ t = false
  | _, _ => False

/-- The comparison `<=` of `double` values; false when an operand is not a
number. -/
def Double.le : Double → Double → Prop
  | .finite a, .finite b => a ≤ b
  | .finite _, .infinite s => s = false
  | .infinite s, .finite _ => s = true
  | .infinite s, .infinite t => s = true ∨ t = false
  | _, _ => False

instance (a b : Double) : Decidable (Double.lt a b) := by
  cases a <;> cases b <;> unfold Double.lt <;> infer_instance

instance (a b : Double) : Decidable (Double.le a b) := by
  cases a <;> cases b <;> unfold Double.le <;> infer_instance

/-! ## `boost::icl::interval_map<double, std::string>`

The map is used through `add` of closed intervals, `find` of a point and
`empty`.  It denotes a function from points to the `+=` aggregate of the values
added over them; the representation below keeps the effective additions in
order, which determines that function. -/

/-- One addition `(closed(lower, upper), text)`. -/
structure Segment where
  lower : Double
  upper : Double
  text : String
deriving DecidableEq

/-- Membership of a point in the closed interval of a segment. -/
def Segment.contains (s : Segment) (t : Double) : Prop := s.lower.le t ∧ t.le s.upper

instance (s : Segment) (t : Double) : Decidable (s.contains t) := by
  unfold Segment.contains; infer_instance

/-- The class `CPlayerDoc::SubtitlesMap`. -/
abbrev SubtitlesMap := List Segment

/-- The `add` member: an empty interval (`upper < lower`) and the identity value
(the empty string) leave the map as it is. -/
def SubtitlesMap.add (m : SubtitlesMap) (lower upper : Double) (text : String) :
    SubtitlesMap :=
  if upper.lt lower ∨ text = "" then m else m ++ [⟨lower, upper, text⟩]

/-- The `find` member: the aggregate (concatenation in order of addition) of
the values whose interval contains `t`; `none` stands for `end()`.  A key that
is not a number compares neither below nor above any interval, so the ordering
that the underlying `std::map` requires is lost and C++ leaves the result
undefined; it is the parameter `unordered`. -/
def SubtitlesMap.find (unordered : SubtitlesMap → Option String) (m : SubtitlesMap) :
    Double → Option String
  | .nan => unordered m
  | t =>
    match m.filter fun s => decide (s.contains t) with
    | [] => none
    | s :: hits => some (hits.foldl (fun acc h => acc ++ h.text) s.text)

/-! ## `ffmpegdecoder.h` -/

/-- The value `MAX_QUEUE_SIZE` of the anonymous enumeration. -/
def MAX_QUEUE_SIZE : Nat := 15 * 1024 * 1024

/-- FFmpeg's `AVRational`. -/
structure AVRational where
  num : Int
  den : Int
deriving DecidableEq

/-- FFmpeg's `av_q2d`: `a.num / (double) a.den`. -/
def av_q2d (a : AVRational) : Double := (Double.ofInt a.num).div (Double.ofInt a.den)

/-- The part of FFmpeg's `AVStream` that the header reads. -/
structure AVStream where
  time_base : AVRational
deriving DecidableEq

/-- The members of `FFmpegDecoder` that its inline functions read. -/
structure FFmpegDecoder where
  m_isPlaying : Bool
  m_isPaused : Bool
  m_videoStream : Option AVStream
deriving DecidableEq

/-- The inline `FFmpegDecoder::getDurationSecs`:
`(m_videoStream != 0) ? av_q2d(m_videoStream->time_base) * duration : 0`. -/
def FFmpegDecoder.getDurationSecs (d : FFmpegDecoder) (duration : Int) : Double :=
  match d.m_videoStream with
  | some s => (av_q2d s.time_base).mul (Double.ofInt duration)
  | none => Double.ofInt 0

/-! ## `PlayerDoc.cpp` -/

/-- The members of `CPlayerDoc` that `PlayerDoc.cpp` uses. -/
structure CPlayerDoc where
  m_frameDecoder : FFmpegDecoder
  m_subtitles : Option SubtitlesMap
  m_currentTime : Double

/-- The expression `hr * 3600 + min * 60 + sec + msec / 1000.`: the first three
terms are `int` arithmetic (two's complement on overflow); the sum is converted
to `double`, `msec` is converted and divided by `1000.`, and the two are added,
all in `double`. -/
def toSeconds (hr min sec msec : Int) : Double :=
  (Double.ofInt (toInt32 (toInt32 (toInt32 (hr * 3600) + toInt32 (min * 60)) + sec))).add
    ((Double.ofInt msec).div (Double.ofInt 1000))

mutual
/-- The `for (;;)` loop of `OpenSubRipFile`, entered with the lines that are
left in the stream. -/
def parseBlocks (overflow : Int → Int) (map : SubtitlesMap) : List String → SubtitlesMap
  | [] => map
  | [_] => map
  | _ :: buffer :: rest =>
    match sscanf overflow timeFormat buffer.toList with
    | [startHr, startMin, startSec, startMsec, endHr, endMin, endSec, endMsec] =>
      readText overflow map (toSeconds startHr startMin startSec startMsec)
        (toSeconds endHr endMin endSec endMsec) "" rest
    | _ => map
/-- The inner `while` loop of `OpenSubRipFile` that collects the text lines,
followed by the conditional `add` and the next round of the outer loop. -/
def readText (overflow : Int → Int) (map : SubtitlesMap) (start stop : Double)
    (subtitle : String) : List String → SubtitlesMap
  | [] => if subtitle ≠ "" then map.add start stop subtitle else map
  | buffer :: rest =>
    if buffer ≠ "" then
      readText overflow map start stop
        ((if subtitle ≠ "" then subtitle.push '\n' else subtitle) ++ buffer) rest
    else
      parseBlocks overflow (if subtitle ≠ "" then map.add start stop subtitle else map) rest
end

/-- The member `CPlayerDoc::OpenSubRipFile`; `srt` is the stream opened on the
video path with its extension replaced by `.srt`. -/
def CPlayerDoc.OpenSubRipFile (overflow : Int → Int) (doc : CPlayerDoc)
    (srt : Option (List String)) : CPlayerDoc :=
  let doc := { doc with m_subtitles := none }
  match srt with
  | none => doc
  | some lines =>
    let map := parseBlocks overflow [] lines
    if map ≠ [] then { doc with m_subtitles := some map } else doc

/-- The member `CPlayerDoc::getSubtitle`. -/
def CPlayerDoc.getSubtitle (unordered : SubtitlesMap → Option String) (doc : CPlayerDoc) :
    String :=
  match doc.m_subtitles with
  | some m =>
    match m.find unordered doc.m_currentTime with
    | some text => text
    | none => ""
  | none => ""

/-- The events that `CPlayerDoc` raises. -/
inductive DocEvent where
  | framePositionChanged (frame total : Int)
  | totalTimeUpdated (secs : Double)
  | currentTimeUpdated (secs : Double)
deriving DecidableEq

/-- The member `CPlayerDoc::changedFramePosition`: the new document and the
events raised, in order. -/
def CPlayerDoc.changedFramePosition (doc : CPlayerDoc) (frame total : Int) :
    CPlayerDoc × List DocEvent :=
  let currentTime := doc.m_frameDecoder.getDurationSecs frame
  ({ doc with m_currentTime := currentTime },
   [.framePositionChanged frame total,
    .totalTimeUpdated (doc.m_frameDecoder.getDurationSecs total),
    .currentTimeUpdated currentTime])

/-- The members of the decoder that `CPlayerDoc` calls and whose bodies are not
in the header; they are parameters of the document operations. -/
structure DecoderOps where
  openFile : FFmpegDecoder → String → Bool × FFmpegDecoder
  play : FFmpegDecoder → Bool → FFmpegDecoder
  close : FFmpegDecoder → FFmpegDecoder

/-- A call that the document makes on its decoder. -/
inductive DecoderCall where
  | openFile (file : String)
  | play (isPaused : Bool)
  | close
deriving DecidableEq

/-- The member `CPlayerDoc::OnOpenDocument`.  `baseOpen` is the result of
`CDocument::OnOpenDocument`, `srt` the subtitle stream next to the video.  The
result is the returned `BOOL`, the new document and the decoder calls made. -/
def CPlayerDoc.OnOpenDocument (overflow : Int → Int) (ops : DecoderOps) (doc : CPlayerDoc)
    (lpszPathName : String) (baseOpen : Bool) (srt : Option (List String)) :
    Bool × CPlayerDoc × List DecoderCall :=
  if !baseOpen then (false, doc, [])
  else
    let opened := ops.openFile doc.m_frameDecoder lpszPathName
    let doc := { doc with m_frameDecoder := opened.2 }
    if opened.1 then
      let doc := doc.OpenSubRipFile overflow srt
      (true, { doc with m_frameDecoder := ops.play doc.m_frameDecoder false },
       [.openFile lpszPathName, .play false])
    else (true, doc, [.openFile lpszPathName])

/-- The member `CPlayerDoc::OnCloseDocument`. -/
def CPlayerDoc.OnCloseDocument (ops : DecoderOps) (doc : CPlayerDoc) : CPlayerDoc :=
  { doc with m_frameDecoder := ops.close doc.m_frameDecoder, m_subtitles := none }

/-- A call that loads or drops subtitles. -/
inductive DocOp where
  | openSubRip (srt : Option (List String))
  | closeDocument

/-- One call on the document. -/
def CPlayerDoc.apply (overflow : Int → Int) (ops : DecoderOps) (doc : CPlayerDoc) :
    DocOp → CPlayerDoc
  | .openSubRip srt => doc.OpenSubRipFile overflow srt
  | .closeDocument => doc.OnCloseDocument ops

/-- A sequence of calls on the document. -/
def CPlayerDoc.run (overflow : Int → Int) (ops : DecoderOps) (doc : CPlayerDoc)
    (calls : List DocOp) : CPlayerDoc :=
  calls.foldl (CPlayerDoc.apply overflow ops) doc

/-- A document as constructed: no subtitles loaded. -/
def CPlayerDoc.create (decoder : FFmpegDecoder) (currentTime : Double) : CPlayerDoc :=
  { m_frameDecoder := decoder, m_subtitles := none, m_currentTime := currentTime }

/-- A decoder with no stream open. -/
def FFmpegDecoder.idle : FFmpegDecoder :=
  { m_isPlaying := false, m_isPaused := false, m_videoStream := none }

/-- Decoder operations for a file that cannot be opened. -/
def DecoderOps.failing : DecoderOps :=
  { openFile := fun d _ => (false, d), play := fun d _ => d, close := fun d => d }

/-- A C library whose `%d` saturates a value outside the range of `int`. -/
def saturate (v : Int) : Int := if v < 0 then -2147483648 else 2147483647

/-- An interval map that finds nothing for a key that is not a number. -/
def notFound (_ : SubtitlesMap) : Option String := none

/-! ## Notions used in the statements about subtitles -/

/-- The text that the inner loop accumulates over the lines `texts`, starting
from `subtitle`. -/
def joinLines (subtitle : String) : List String → String
  | [] => subtitle
  | buffer :: rest =>
    joinLines ((if subtitle ≠ "" then subtitle.push '\n' else subtitle) ++ buffer) rest

/-- The map after the conditional `add` that ends a block. -/
def addIfText (map : SubtitlesMap) (start stop : Double) (subtitle : String) : SubtitlesMap :=
  if subtitle ≠ "" then map.add start stop subtitle else map

/-- One block of a SubRip file: index line, timestamp line, text lines. -/
structure Block where
  index : String
  stamp : String
  texts : List String

/-- The lines of a block, with the empty line that ends it. -/
def Block.lines (b : Block) : List String := b.index :: b.stamp :: b.texts ++ [""]

/-- The lines of a sequence of blocks. -/
def blocksLines : List Block → List String
  | [] => []
  | b :: bs => b.lines ++ blocksLines bs

/-- The timestamp line converts all eight integers and no text line is empty. -/
def Block.Parses (overflow : Int → Int) (b : Block) : Prop :=
  (sscanf overflow timeFormat b.stamp.toList).length = 8 ∧ ∀ l ∈ b.texts, l ≠ ""

/-- What the reader does with a block that parses. -/
def Block.store (overflow : Int → Int) (b : Block) (map : SubtitlesMap) : SubtitlesMap :=
  match sscanf overflow timeFormat b.stamp.toList with
  | [startHr, startMin, startSec, startMsec, endHr, endMin, endSec, endMsec] =>
    addIfText map (toSeconds startHr startMin startSec startMsec)
      (toSeconds endHr endMin endSec endMsec) (joinLines "" b.texts)
  | _ => map

/-- Every stored text is non-empty. -/
def TextsNonEmpty (m : SubtitlesMap) : Prop := ∀ s ∈ m, s.text ≠ ""

/-- The subtitle member is null, or a non-empty map of non-empty texts. -/
def CPlayerDoc.SubtitlesValid (doc : CPlayerDoc) : Prop :=
  ∀ m, doc.m_subtitles = some m → m ≠ [] ∧ TextsNonEmpty m

/-- No point lies in both intervals. -/
def Segment.Disjoint (a b : Segment) : Prop := ∀ t : Double, ¬ (a.contains t ∧ b.contains t)

/-- The entries that `OpenSubRipFile` adds for a stream. -/
def parsedEntries (overflow : Int → Int) : Option (List String) → SubtitlesMap
  | none => []
  | some lines => parseBlocks overflow [] lines

/-- The `int` sum `hr * 3600 + min * 60 + sec` stays in range at every step. -/
def NoOverflow (hr min sec : Int) : Prop :=
  InInt32 (hr * 3600) ∧ InInt32 (min * 60) ∧ InInt32 (hr * 3600 + min * 60) ∧
    InInt32 (hr * 3600 + min * 60 + sec)

instance (hr min sec : Int) : Decidable (NoOverflow hr min sec) := by
  unfold NoOverflow; infer_instance

/-! ## Bounded packet queue

`FQueue` is declared in `fqueue.h`, which is not among the sources at hand; the
queue follows section 4.1 of the specification.  Blocking is rendered
sequentially: a call that would block returns `blocked` and changes nothing. -/

/-- Modelled from the spec: the `Packet` of section 3 (the packet type of the
missing `fqueue.h`): stream identifier, presentation timestamp, byte size. -/
structure Packet where
  stream : Nat
  pts : Int
  size : Nat
deriving DecidableEq

/-- Modelled from the spec: the state of the Bounded Packet Queue of section 4.1
(class `FQueue` of the missing `fqueue.h`): the queued packets in order, the
byte total, and whether a stop signal has arrived. -/
structure PacketQueue where
  items : List Packet
  total_bytes : Nat
  stopped : Bool
deriving DecidableEq

/-- Modelled from the spec: the result of a queue call of section 4.1 (the
missing `fqueue.h`). -/
inductive QueueResult where
  | inserted
  | packet (p : Packet)
  | blocked
  | queueStopped
  | done
deriving DecidableEq

/-- Modelled from the spec: the empty queue that `open` creates (missing
`fqueue.h`). -/
def PacketQueue.empty : PacketQueue := { items := [], total_bytes := 0, stopped := false }

/-- Modelled from the spec: `push` of section 4.1 (missing `fqueue.h`): blocks
while `total_bytes ≥ MAX_QUEUE_BYTES`, returns "queue stopped" without
inserting after a stop signal, and otherwise appends the packet and adds its
size to the byte total. -/
def PacketQueue.push (q : PacketQueue) (p : Packet) : QueueResult × PacketQueue :=
  if q.stopped then (.queueStopped, q)
  else if q.total_bytes ≥ MAX_QUEUE_SIZE then (.blocked, q)
  else (.inserted, { q with items := q.items ++ [p], total_bytes := q.total_bytes + p.size })

/-- Modelled from the spec: `pop` of section 4.1 (missing `fqueue.h`): blocks
while empty, returns "queue stopped" after a stop signal, and otherwise hands
over the head packet and subtracts its size from the byte total. -/
def PacketQueue.pop (q : PacketQueue) : QueueResult × PacketQueue :=
  if q.stopped then (.queueStopped, q)
  else
    match q.items with
    | [] => (.blocked, q)
    | p :: rest => (.packet p, { q with items := rest, total_bytes := q.total_bytes - p.size })

/-- Modelled from the spec: `flush` of section 4.1 (missing `fqueue.h`):
discards all queued packets and resets the size accounting. -/
def PacketQueue.flush (q : PacketQueue) : QueueResult × PacketQueue :=
  (.done, { q with items := [], total_bytes := 0 })

/-- Modelled from the spec: the stop signal of section 4.1 (missing
`fqueue.h`). -/
def PacketQueue.stop (q : PacketQueue) : QueueResult × PacketQueue :=
  (.done, { q with stopped := true })

/-- A call on the queue. -/
inductive QueueOp where
  | push (p : Packet)
  | pop
  | flush
  | stop
deriving DecidableEq

/-- One call on the queue. -/
def PacketQueue.step (q : PacketQueue) : QueueOp → QueueResult × PacketQueue
  | .push p => q.push p
  | .pop => q.pop
  | .flush => q.flush
  | .stop => q.stop

/-- A sequence of calls: the calls with their results, and the final queue. -/
def PacketQueue.run (q : PacketQueue) : List QueueOp → List (QueueOp × QueueResult) × PacketQueue
  | [] => ([], q)
  | op :: ops =>
    let r := q.step op
    let rs := PacketQueue.run r.2 ops
    ((op, r.1) :: rs.1, rs.2)

/-- The packets that a history of calls leaves pushed and neither popped nor
flushed, computed from the calls and their results alone. -/
def outstanding : List Packet → List (QueueOp × QueueResult) → List Packet
  | acc, [] => acc
  | acc, (.push p, .inserted) :: h => outstanding (acc ++ [p]) h
  | acc, (.pop, .packet p) :: h => outstanding (acc.erase p) h
  | _, (.flush, _) :: h => outstanding [] h
  | acc, _ :: h => outstanding acc h

/-- The sum of the sizes of the packets. -/
def bytesOf (ps : List Packet) : Nat := (ps.map Packet.size).sum

/-! ## Playback controller

`FFmpegDecoder::seekByPercent` and `FFmpegDecoder::close` are defined in
`ffmpegdecoder.cpp`, which is not among the sources at hand; the controller
follows sections 3, 4.3 and 4.7 of the specification. -/

/-- Modelled from the spec: the Playback State of section 3 (kept by the missing
`ffmpegdecoder.cpp`). -/
inductive PlaybackState where
  | Closed
  | Opening
  | Playing
  | Paused
  | Seeking
  | Closing
deriving DecidableEq

/-- Modelled from the spec: the worker threads of section 2 (started by the
missing `ffmpegdecoder.cpp`). -/
inductive Worker where
  | Demux
  | AudioDecode
  | VideoDecode
deriving DecidableEq

/-- Modelled from the spec: the result code of a control operation, section 7
(missing `ffmpegdecoder.cpp`). -/
inductive ControlResult where
  | ok
  | error
deriving DecidableEq

/-- Modelled from the spec: the pipeline that the Playback Controller of
section 4.7 coordinates (members of the missing `ffmpegdecoder.cpp`): the
playback state, the Master Clock, the running workers, both packet queues, the
timestamps in the video frame queue, and whether container and codec resources
are held. -/
structure Pipeline where
  state : PlaybackState
  masterClock : ℚ
  workers : List Worker
  videoPackets : PacketQueue
  audioPackets : PacketQueue
  frames : List ℚ
  resources : Bool
deriving DecidableEq

/-- Modelled from the spec: first step of `close` in section 4.7 (missing
`ffmpegdecoder.cpp`): enter Closing and signal stop to all queues. -/
def Pipeline.signalStop (p : Pipeline) : Pipeline :=
  { p with
    state := .Closing
    videoPackets := p.videoPackets.stop.2
    audioPackets := p.audioPackets.stop.2 }

/-- Modelled from the spec: second step of `close` (missing
`ffmpegdecoder.cpp`): join all worker threads. -/
def Pipeline.joinWorkers (p : Pipeline) : Pipeline := { p with workers := [] }

/-- Modelled from the spec: last step of `close` (missing `ffmpegdecoder.cpp`):
release all codec and container resources, tear the queues down and become
Closed. -/
def Pipeline.release (p : Pipeline) : Pipeline :=
  { p with
    state := .Closed
    videoPackets := PacketQueue.empty
    audioPackets := PacketQueue.empty
    frames := []
    resources := false }

/-- Modelled from the spec: `close` of section 4.7 (body in the missing
`ffmpegdecoder.cpp`): signals stop, joins the workers, releases the resources
and becomes Closed; closing a Closed pipeline is a no-op. -/
def Pipeline.close (p : Pipeline) : ControlResult × Pipeline :=
  if p.state = .Closed then (.ok, p)
  else (.ok, p.signalStop.joinWorkers.release)

/-- A pipeline in the middle of playback. -/
def Pipeline.playing : Pipeline :=
  { state := .Playing, masterClock := 7, workers := [.Demux, .AudioDecode, .VideoDecode],
    videoPackets := { items := [⟨0, 0, 4096⟩], total_bytes := 4096, stopped := false },
    audioPackets := PacketQueue.empty, frames := [7], resources := true }

/-- A document as constructed, with an idle decoder and time zero. -/
def CPlayerDoc.fresh : CPlayerDoc := CPlayerDoc.create FFmpegDecoder.idle (.finite 0)

/-- A SubRip file with two entries. -/
def sampleFile : List String :=
  ["1", "00:00:01,000 --> 00:00:02,000", "Hello", "",
   "2", "00:00:03,000 --> 00:00:04,500", "World", "again"]

/-- A SubRip file whose second block has a malformed timestamp line. -/
def brokenFile : List String :=
  ["1", "00:00:01,000 --> 00:00:02,000", "Hello", "",
   "2", "00:00:03.000 -> 00:00:04.500", "World", "",
   "3", "00:00:05,000 --> 00:00:06,000", "Later"]

/-- A SubRip file whose only block ends before it starts. -/
def reversedFile : List String := ["1", "00:00:05,000 --> 00:00:01,000", "Hi"]

/-- A SubRip file whose hour count does not fit the `int` product by 3600. -/
def overflowFile : List String := ["1", "1193047:00:00,000 --> 1193047:00:01,000", "Hi"]

/-- A SubRip file whose times are not binary fractions. -/
def tenthsFile : List String := ["1", "00:00:01,100 --> 00:00:02,300", "Tenths"]

/-- The queue's state agrees with the packets `acc` outstanding so far, and its
byte total stays below the cap plus the packet size bound `B`. -/
def QueueInv (B : Nat) (q : PacketQueue) (acc : List Packet) : Prop :=
  q.items = acc ∧ q.total_bytes = bytesOf acc ∧ q.total_bytes < MAX_QUEUE_SIZE + B

/-- A decoder with a video stream of 25 frames per second open. -/
def FFmpegDecoder.pal : FFmpegDecoder :=
  { m_isPlaying := true, m_isPaused := false, m_videoStream := some ⟨⟨1, 25⟩⟩ }

/-! ## Auxiliary facts: integers, doubles and strings -/

theorem toInt32_of_inRange {z : Int} (h : InInt32 z) : toInt32 z = z := by
  unfold InInt32 at h
  unfold toInt32
  omega

theorem toSeconds_noOverflow (hr min sec msec : Int) (h : NoOverflow hr min sec) :
    toSeconds hr min sec msec =
      (Double.ofInt (hr * 3600 + min * 60 + sec)).add
        ((Double.ofInt msec).div (Double.ofInt 1000)) := by
  obtain ⟨h1, h2, h3, h4⟩ := h
  unfold toSeconds
  rw [toInt32_of_inRange h1, toInt32_of_inRange h2, toInt32_of_inRange h3,
    toInt32_of_inRange h4]

theorem roundDouble_zero : roundDouble 0 = .finite 0 := by
  simp [roundDouble]

theorem ofInt_zero : Double.ofInt 0 = .finite 0 := by
  simp [Double.ofInt, roundDouble]

theorem string_ne_empty_iff (s : String) : s ≠ "" ↔ s.data ≠ [] := by
  constructor
  · intro h hd
    apply h
    cases s
    simp_all
  · intro h hs
    apply h
    rw [hs]

theorem append_ne_empty_left (a b : String) (h : a ≠ "") : a ++ b ≠ "" := by
  rw [string_ne_empty_iff] at *
  simp [h]

theorem push_newline (a : String) : a.push '\n' = a ++ "\n" := by
  cases a
  rfl

theorem empty_append_string (a : String) : "" ++ a = a := by
  cases a
  rfl

theorem intercalate_go_ne_empty (sep : String) (as : List String) :
    ∀ acc : String, acc ≠ "" → String.intercalate.go acc sep as ≠ "" := by
  induction as with
  | nil => intro acc h; simpa [String.intercalate.go] using h
  | cons a as ih =>
    intro acc h
    simp only [String.intercalate.go]
    exact ih _ (append_ne_empty_left _ _ (append_ne_empty_left _ _ h))

theorem joinLines_eq_go (texts : List String) :
    ∀ subtitle : String, subtitle ≠ "" →
      joinLines subtitle texts = String.intercalate.go subtitle "\n" texts := by
  induction texts with
  | nil => intro subtitle _; simp [joinLines, String.intercalate.go]
  | cons a as ih =>
    intro subtitle h
    simp only [joinLines, String.intercalate.go, if_pos h, push_newline]
    exact ih _ (append_ne_empty_left _ _ (append_ne_empty_left _ _ h))

theorem joinLines_eq_intercalate (texts : List String) (hne : ∀ l ∈ texts, l ≠ "") :
    joinLines "" texts = String.intercalate "\n" texts := by
  cases texts with
  | nil => rfl
  | cons a as =>
    have ha : a ≠ "" := hne a (by simp)
    simp only [joinLines, String.intercalate, ne_eq, not_true_eq_false, if_false,
      empty_append_string]
    exact joinLines_eq_go as a ha

theorem joinLines_ne_empty (texts : List String) (hne : ∀ l ∈ texts, l ≠ "")
    (h : texts ≠ []) : joinLines "" texts ≠ "" := by
  rw [joinLines_eq_intercalate texts hne]
  cases texts with
  | nil => exact absurd rfl h
  | cons a as => exact intercalate_go_ne_empty _ as a (hne a (by simp))

/-! ## Auxiliary facts: the SubRip reader -/

theorem parseBlocks_nil (overflow : Int → Int) (map : SubtitlesMap) :
    parseBlocks overflow map [] = map := by
  simp [parseBlocks]

theorem readText_nil (overflow : Int → Int) (map : SubtitlesMap) (start stop : Double)
    (subtitle : String) :
    readText overflow map start stop subtitle [] = addIfText map start stop subtitle := by
  simp [readText, addIfText]

theorem readText_cons (overflow : Int → Int) (map : SubtitlesMap) (start stop : Double)
    (subtitle buffer : String) (rest : List String) :
    readText overflow map start stop subtitle (buffer :: rest) =
      if buffer ≠ "" then
        readText overflow map start stop
          ((if subtitle ≠ "" then subtitle.push '\n' else subtitle) ++ buffer) rest
      else parseBlocks overflow (addIfText map start stop subtitle) rest := by
  rw [readText]
  rfl

theorem readText_texts (overflow : Int → Int) (map : SubtitlesMap) (start stop : Double)
    (texts : List String) (hne : ∀ l ∈ texts, l ≠ "") :
    ∀ subtitle : String,
      (∀ rest, readText overflow map start stop subtitle (texts ++ "" :: rest) =
        parseBlocks overflow (addIfText map start stop (joinLines subtitle texts)) rest) ∧
      readText overflow map start stop subtitle texts =
        addIfText map start stop (joinLines subtitle texts) := by
  induction texts with
  | nil =>
    intro subtitle
    constructor
    · intro rest
      simp [readText_cons, joinLines]
    · simp [readText_nil, joinLines]
  | cons a as ih =>
    intro subtitle
    have ha : a ≠ "" := hne a (by simp)
    have ih2 := ih (fun l hl => hne l (by simp [hl]))
      ((if subtitle ≠ "" then subtitle.push '\n' else subtitle) ++ a)
    constructor
    · intro rest
      rw [List.cons_append, readText_cons, if_pos ha]
      simpa [joinLines] using ih2.1 rest
    · rw [readText_cons, if_pos ha]
      simpa [joinLines] using ih2.2

theorem parseBlocks_stamp (overflow : Int → Int) (map : SubtitlesMap) (index stamp : String)
    (rest : List String) (a b c d e f g h : Int)
    (hs : sscanf overflow timeFormat stamp.toList = [a, b, c, d, e, f, g, h]) :
    parseBlocks overflow map (index :: stamp :: rest) =
      readText overflow map (toSeconds a b c d) (toSeconds e f g h) "" rest := by
  rw [parseBlocks, hs]

theorem length_eight {α : Type} (l : List α) (h : l.length = 8) :
    ∃ a b c d e f g k, l = [a, b, c, d, e, f, g, k] := by
  match l, h with
  | [a, b, c, d, e, f, g, k], _ => exact ⟨a, b, c, d, e, f, g, k, rfl⟩

theorem parseBlocks_malformed (overflow : Int → Int) (map : SubtitlesMap)
    (index bad : String) (rest : List String)
    (hbad : (sscanf overflow timeFormat bad.toList).length ≠ 8) :
    parseBlocks overflow map (index :: bad :: rest) = map := by
  rw [parseBlocks]
  split
  · rename_i heq
    rw [heq] at hbad
    exact absurd rfl hbad
  · rfl

theorem parseBlocks_block (overflow : Int → Int) (b : Block) (hb : b.Parses overflow)
    (map : SubtitlesMap) (more : List String) :
    parseBlocks overflow map (b.lines ++ more) =
      parseBlocks overflow (b.store overflow map) more := by
  obtain ⟨hlen, hne⟩ := hb
  obtain ⟨a1, a2, a3, a4, a5, a6, a7, a8, hs⟩ := length_eight _ hlen
  have h1 : b.lines ++ more = b.index :: b.stamp :: (b.texts ++ "" :: more) := by
    simp [Block.lines]
  rw [h1, parseBlocks_stamp overflow map _ _ _ _ _ _ _ _ _ _ _ hs,
    (readText_texts overflow map _ _ b.texts hne "").1 more]
  unfold Block.store
  rw [hs]

theorem parseBlocks_blocks (overflow : Int → Int) (bs : List Block)
    (hbs : ∀ b ∈ bs, b.Parses overflow) :
    ∀ (map : SubtitlesMap) (more : List String),
      parseBlocks overflow map (blocksLines bs ++ more) =
        parseBlocks overflow (bs.foldl (fun m b => b.store overflow m) map) more := by
  induction bs with
  | nil => intro map more; simp [blocksLines]
  | cons b bs ih =>
    intro map more
    have hb : b.Parses overflow := hbs b (by simp)
    rw [blocksLines, List.append_assoc, parseBlocks_block overflow b hb, List.foldl_cons]
    exact ih (fun c hc => hbs c (by simp [hc])) _ _

theorem add_textsNonEmpty (m : SubtitlesMap) (lo hi : Double) (text : String)
    (h : TextsNonEmpty m) : TextsNonEmpty (m.add lo hi text) := by
  unfold SubtitlesMap.add
  split
  · exact h
  · rename_i hc
    intro s hs
    rw [List.mem_append] at hs
    rcases hs with hs | hs
    · exact h s hs
    · simp only [List.mem_singleton] at hs
      subst hs
      exact fun ht => hc (Or.inr ht)

theorem addIfText_textsNonEmpty (m : SubtitlesMap) (lo hi : Double) (text : String)
    (h : TextsNonEmpty m) : TextsNonEmpty (addIfText m lo hi text) := by
  unfold addIfText
  split
  · exact add_textsNonEmpty m lo hi text h
  · exact h

theorem parse_textsNonEmpty_aux (overflow : Int → Int) (n : Nat) :
    ∀ lines : List String, lines.length ≤ n →
      (∀ map, TextsNonEmpty map → TextsNonEmpty (parseBlocks overflow map lines)) ∧
      (∀ map start stop subtitle, TextsNonEmpty map →
        TextsNonEmpty (readText overflow map start stop subtitle lines)) := by
  induction n with
  | zero =>
    intro lines hl
    have : lines = [] := List.length_eq_zero.mp (Nat.le_zero.mp hl)
    subst this
    refine ⟨fun map h => by simpa [parseBlocks] using h, fun map start stop subtitle h => ?_⟩
    rw [readText_nil]
    exact addIfText_textsNonEmpty map start stop subtitle h
  | succ n ih =>
    intro lines hl
    match lines, hl with
    | [], _ =>
      refine ⟨fun map h => by simpa [parseBlocks] using h, fun map start stop subtitle h => ?_⟩
      rw [readText_nil]
      exact addIfText_textsNonEmpty map start stop subtitle h
    | [a], _ =>
      constructor
      · intro map h
        simpa [parseBlocks] using h
      · intro map start stop subtitle h
        rw [readText_cons]
        split
        · exact (ih [] (by simp)).2 _ _ _ _ h
        · exact (ih [] (by simp)).1 _ (addIfText_textsNonEmpty map start stop subtitle h)
    | a :: b :: rest, hl =>
      have hrest : rest.length ≤ n := by simp at hl; omega
      have hbrest : (b :: rest).length ≤ n := by simp at hl; simp; omega
      constructor
      · intro map h
        rw [parseBlocks]
        split
        · exact (ih rest hrest).2 _ _ _ _ h
        · exact h
      · intro map start stop subtitle h
        rw [readText_cons]
        split
        · exact (ih (b :: rest) hbrest).2 _ _ _ _ h
        · exact (ih (b :: rest) hbrest).1 _ (addIfText_textsNonEmpty map start stop subtitle h)

theorem parseBlocks_textsNonEmpty (overflow : Int → Int) (map : SubtitlesMap)
    (lines : List String) (h : TextsNonEmpty map) :
    TextsNonEmpty (parseBlocks overflow map lines) :=
  (parse_textsNonEmpty_aux overflow lines.length lines (Nat.le_refl _)).1 map h

theorem parsedEntries_textsNonEmpty (overflow : Int → Int) (srt : Option (List String)) :
    TextsNonEmpty (parsedEntries overflow srt) := by
  cases srt with
  | none => intro s hs; simp [parsedEntries] at hs
  | some lines =>
    exact parseBlocks_textsNonEmpty overflow [] lines (fun s hs => by simp at hs)

theorem OpenSubRipFile_subtitles (overflow : Int → Int) (doc : CPlayerDoc)
    (srt : Option (List String)) :
    (doc.OpenSubRipFile overflow srt).m_subtitles =
      if parsedEntries overflow srt = [] then none else some (parsedEntries overflow srt) := by
  cases srt with
  | none => simp [CPlayerDoc.OpenSubRipFile, parsedEntries]
  | some lines =>
    by_cases h : parseBlocks overflow [] lines = []
    · simp [CPlayerDoc.OpenSubRipFile, parsedEntries, h]
    · simp [CPlayerDoc.OpenSubRipFile, parsedEntries, h]

theorem OpenSubRipFile_valid (overflow : Int → Int) (doc : CPlayerDoc)
    (srt : Option (List String)) : (doc.OpenSubRipFile overflow srt).SubtitlesValid := by
  intro m hm
  rw [OpenSubRipFile_subtitles] at hm
  split at hm
  · exact absurd hm (by simp)
  · rename_i hne
    have : parsedEntries overflow srt = m := by simpa using hm
    subst this
    exact ⟨hne, parsedEntries_textsNonEmpty overflow srt⟩

theorem find_ordered (unordered : SubtitlesMap → Option String) (m : SubtitlesMap)
    (t : Double) (ht : t ≠ .nan) :
    m.find unordered t =
      match m.filter fun s => decide (s.contains t) with
      | [] => none
      | s :: hits => some (hits.foldl (fun acc h => acc ++ h.text) s.text) := by
  cases t with
  | finite v => rfl
  | infinite s => rfl
  | nan => exact absurd rfl ht

theorem filter_contains_of_pairwise (t : Double) (m : SubtitlesMap)
    (h : m.Pairwise Segment.Disjoint) :
    m.filter (fun s => decide (s.contains t)) = [] ∨
      ∃ e, e ∈ m ∧ e.contains t ∧ m.filter (fun s => decide (s.contains t)) = [e] := by
  induction m with
  | nil => left; rfl
  | cons a m ih =>
    rw [List.pairwise_cons] at h
    by_cases ha : a.contains t
    · right
      refine ⟨a, by simp, ha, ?_⟩
      have hnone : m.filter (fun s => decide (s.contains t)) = [] := by
        rw [List.filter_eq_nil_iff]
        intro b hb
        simp only [decide_eq_true_eq]
        exact fun hbt => h.1 b hb t ⟨ha, hbt⟩
      simp [List.filter_cons, ha, hnone]
    · rcases ih h.2 with h0 | ⟨e, he, het, hf⟩
      · left
        simp [List.filter_cons, ha, h0]
      · right
        exact ⟨e, by simp [he], het, by simp [List.filter_cons, ha, hf]⟩

theorem find_of_pairwise (unordered : SubtitlesMap → Option String) (t : Double)
    (ht : t ≠ .nan) (m : SubtitlesMap) (h : m.Pairwise Segment.Disjoint) :
    (m.find unordered t = none ∧ ∀ e ∈ m, ¬ e.contains t) ∨
      ∃ e, e ∈ m ∧ e.contains t ∧ m.find unordered t = some e.text ∧
        ∀ e2 ∈ m, e2.contains t → e2.text = e.text := by
  rw [find_ordered unordered m t ht]
  rcases filter_contains_of_pairwise t m h with h0 | ⟨e, he, het, hf⟩
  · left
    refine ⟨by simp [h0], ?_⟩
    intro e he hc
    rw [List.filter_eq_nil_iff] at h0
    exact absurd (decide_eq_true hc) (h0 e he)
  · right
    refine ⟨e, he, het, by simp [hf], ?_⟩
    intro e2 he2 hc2
    have hmem : e2 ∈ m.filter (fun s => decide (s.contains t)) :=
      List.mem_filter.mpr ⟨he2, decide_eq_true hc2⟩
    rw [hf, List.mem_singleton] at hmem
    rw [hmem]

theorem parsedEntries_sampleFile :
    parsedEntries saturate (some sampleFile) =
      [⟨.finite 1, .finite 2, "Hello"⟩, ⟨.finite 3, .finite (9 / 2), "World\nagain"⟩] := by
  decide!

theorem parsedEntries_brokenFile :
    parsedEntries saturate (some brokenFile) = [⟨.finite 1, .finite 2, "Hello"⟩] := by
  decide!

theorem parsedEntries_reversedFile : parsedEntries saturate (some reversedFile) = [] := by
  decide!

theorem parsedEntries_overflowFile :
    parsedEntries saturate (some overflowFile) = [⟨.finite 1904, .finite 1905, "Hi"⟩] := by
  decide!

theorem parsedEntries_tenthsFile :
    parsedEntries saturate (some tenthsFile) =
      [⟨.finite (2476979795053773 / 2251799813685248),
        .finite (2589569785738035 / 1125899906842624), "Tenths"⟩] := by
  decide!

theorem getSubtitle_of_entries (overflow : Int → Int)
    (unordered : SubtitlesMap → Option String) (doc : CPlayerDoc)
    (srt : Option (List String)) (t : Double) (ht : t ≠ .nan) :
    ({ doc.OpenSubRipFile overflow srt with m_currentTime := t } : CPlayerDoc).getSubtitle
        unordered =
      ((parsedEntries overflow srt).find unordered t).getD "" := by
  have h := OpenSubRipFile_subtitles overflow doc srt
  unfold CPlayerDoc.getSubtitle
  simp only [h]
  by_cases he : parsedEntries overflow srt = []
  · simp [he, find_ordered unordered [] t ht]
  · simp only [he, if_false]
    cases (parsedEntries overflow srt).find unordered t <;> rfl

theorem run_valid (overflow : Int → Int) (ops : DecoderOps) (calls : List DocOp) :
    ∀ doc : CPlayerDoc, doc.SubtitlesValid →
      (doc.run overflow ops calls).SubtitlesValid := by
  induction calls with
  | nil => intro doc h; exact h
  | cons c cs ih =>
    intro doc _
    unfold CPlayerDoc.run
    rw [List.foldl_cons]
    apply ih
    cases c with
    | openSubRip srt => exact OpenSubRipFile_valid overflow doc srt
    | closeDocument =>
      intro m hm
      simp [CPlayerDoc.apply, CPlayerDoc.OnCloseDocument] at hm

theorem bitLength_zero (fuel : Nat) : bitLength fuel 0 = 0 := by
  cases fuel <;> simp [bitLength]

theorem lt_two_pow_bitLength (fuel : Nat) : ∀ n : Nat, n ≤ fuel → n < 2 ^ bitLength fuel n := by
  induction fuel with
  | zero =>
    intro n hn
    have : n = 0 := Nat.le_zero.mp hn
    subst this
    simp [bitLength]
  | succ fuel ih =>
    intro n hn
    by_cases h0 : n = 0
    · subst h0
      simp [bitLength]
    · have hhalf : n / 2 ≤ fuel := by omega
      have := ih (n / 2) hhalf
      simp only [bitLength, h0, if_false, pow_succ]
      omega

theorem two_pow_bitLength_le (fuel : Nat) :
    ∀ n : Nat, n ≤ fuel → 1 ≤ n → 2 ^ bitLength fuel n ≤ 2 * n := by
  induction fuel with
  | zero => intro n hn h1; omega
  | succ fuel ih =>
    intro n hn h1
    have h0 : n ≠ 0 := by omega
    simp only [bitLength, h0, if_false, pow_succ]
    by_cases hh : n / 2 = 0
    · rw [hh, bitLength_zero]
      omega
    · have hhalf : n / 2 ≤ fuel := by omega
      have := ih (n / 2) hhalf (by omega)
      omega

theorem abs_eq_natAbs_div_den (x : ℚ) : |x| = (x.num.natAbs : ℚ) / (x.den : ℚ) := by
  have hden : (0 : ℚ) < (x.den : ℚ) := by exact_mod_cast x.den_pos
  conv_lhs => rw [← Rat.num_div_den x]
  rw [abs_div, abs_of_pos hden]
  rw [Nat.cast_natAbs, Int.cast_abs]

theorem pow2_ilog2_le (x : ℚ) (hx : x ≠ 0) : pow2 (ilog2 x) ≤ |x| := by
  unfold ilog2
  simp only
  split
  · assumption
  · have hN : 1 ≤ x.num.natAbs := by
      have : x.num ≠ 0 := Rat.num_ne_zero.mpr hx
      omega
    have h1 := two_pow_bitLength_le x.num.natAbs x.num.natAbs (Nat.le_refl _) hN
    have h2 := lt_two_pow_bitLength x.den x.den (Nat.le_refl _)
    have h1q : (2 : ℚ) ^ bitLength x.num.natAbs x.num.natAbs ≤ 2 * (x.num.natAbs : ℚ) := by
      exact_mod_cast h1
    have h2q : (x.den : ℚ) ≤ (2 : ℚ) ^ bitLength x.den x.den := by
      exact_mod_cast le_of_lt h2
    have hden : (0 : ℚ) < (x.den : ℚ) := by exact_mod_cast x.den_pos
    have hpd : (0 : ℚ) < (2 : ℚ) ^ bitLength x.den x.den := by positivity
    rw [abs_eq_natAbs_div_den]
    unfold pow2
    rw [zpow_sub₀ (by norm_num), zpow_sub₀ (by norm_num), zpow_natCast, zpow_natCast, zpow_one]
    rw [div_div, div_le_div_iff₀ (by positivity) hden]
    calc (2 : ℚ) ^ bitLength x.num.natAbs x.num.natAbs * (x.den : ℚ)
        ≤ (2 * (x.num.natAbs : ℚ)) * (2 : ℚ) ^ bitLength x.den x.den := by
          apply mul_le_mul h1q h2q (le_of_lt hden)
          positivity
      _ = (x.num.natAbs : ℚ) * ((2 : ℚ) ^ bitLength x.den x.den * 2) := by ring

theorem roundHalfEven_intCast (z : Int) : roundHalfEven (z : ℚ) = z := by
  unfold roundHalfEven
  simp

theorem roundDouble_dyadic (n : Int) (j : Nat) (hn : |n| < 2 ^ 53) (hj : j ≤ 1074) :
    roundDouble ((n : ℚ) / 2 ^ j) = .finite ((n : ℚ) / 2 ^ j) := by
  by_cases h0 : n = 0
  · subst h0
    simp [roundDouble]
  · have hx : (n : ℚ) / 2 ^ j ≠ 0 := by
      apply div_ne_zero
      · exact_mod_cast h0
      · positivity
    have hxabs : |(n : ℚ) / 2 ^ j| < (2 : ℚ) ^ ((53 : Int) - j) := by
      rw [abs_div, abs_of_pos (by positivity : (0 : ℚ) < 2 ^ j), zpow_sub₀ (by norm_num),
        zpow_natCast]
      apply div_lt_div_of_pos_right _ (by positivity)
      have h : ((|n| : Int) : ℚ) < (2 : ℚ) ^ 53 := by exact_mod_cast hn
      rw [Int.cast_abs] at h
      exact_mod_cast h
    have hL := pow2_ilog2_le _ hx
    have hLlt : ilog2 ((n : ℚ) / 2 ^ j) < 53 - (j : Int) := by
      have := lt_of_le_of_lt hL hxabs
      unfold pow2 at this
      exact (zpow_lt_zpow_iff_right₀ (by norm_num : (1 : ℚ) < 2)).mp this
    have he : max (ilog2 ((n : ℚ) / 2 ^ j) - 52) (-1074) ≤ -(j : Int) := by
      apply max_le <;> omega
    obtain ⟨c, hc⟩ : ∃ c : Nat, (c : Int) = -(j : Int) -
        max (ilog2 ((n : ℚ) / 2 ^ j) - 52) (-1074) := ⟨(-(j : Int) -
        max (ilog2 ((n : ℚ) / 2 ^ j) - 52) (-1074)).toNat, by
          rw [Int.toNat_of_nonneg]; omega⟩
    have hscaled : (n : ℚ) / 2 ^ j / pow2 (max (ilog2 ((n : ℚ) / 2 ^ j) - 52) (-1074)) =
        ((n * 2 ^ c : Int) : ℚ) := by
      unfold pow2
      have he2 : max (ilog2 ((n : ℚ) / 2 ^ j) - 52) (-1074) = -(j : Int) - (c : Int) := by
        omega
      rw [he2, zpow_sub₀ (by norm_num), zpow_neg, zpow_natCast, zpow_natCast]
      push_cast
      field_simp
      ring
    have hback : ((n * 2 ^ c : Int) : ℚ) * pow2 (max (ilog2 ((n : ℚ) / 2 ^ j) - 52) (-1074)) =
        (n : ℚ) / 2 ^ j := by
      rw [← hscaled]
      unfold pow2
      field_simp
      ring
    have hfin : ¬ pow2 1024 ≤ |(n : ℚ) / 2 ^ j| := by
      rw [not_le]
      apply lt_of_lt_of_le hxabs
      unfold pow2
      apply zpow_le_zpow_right₀ (by norm_num)
      omega
    unfold roundDouble
    simp only [hx, if_false]
    rw [hscaled, roundHalfEven_intCast, hback, if_neg hfin]

theorem ofInt_exact (z : Int) (hz : |z| < 2 ^ 53) : Double.ofInt z = .finite (z : ℚ) := by
  have := roundDouble_dyadic z 0 hz (by omega)
  simpa [Double.ofInt] using this

theorem toSeconds_exact (hr min sec msec : Int) (h : NoOverflow hr min sec)
    (hms : InInt32 msec) (hdiv : 125 ∣ msec) :
    (Double.ofInt (hr * 3600 + min * 60 + sec)).add
        ((Double.ofInt msec).div (Double.ofInt 1000)) =
      .finite (3600 * (hr : ℚ) + 60 * (min : ℚ) + (sec : ℚ) + (msec : ℚ) / 1000) := by
  obtain ⟨k, hk⟩ := hdiv
  have hS : InInt32 (hr * 3600 + min * 60 + sec) := h.2.2.2
  unfold InInt32 at hS hms
  have hSabs : |hr * 3600 + min * 60 + sec| < 2 ^ 53 := by
    rw [abs_lt]
    constructor <;> omega
  have hmsabs : |msec| < 2 ^ 53 := by
    rw [abs_lt]
    constructor <;> omega
  have hkabs : |k| < 2 ^ 53 := by
    rw [abs_lt]
    constructor <;> omega
  have hsum : |8 * (hr * 3600 + min * 60 + sec) + k| < 2 ^ 53 := by
    rw [abs_lt]
    constructor <;> omega
  have h1000 : Double.ofInt 1000 = .finite 1000 := by
    have := ofInt_exact 1000 (by norm_num)
    simpa using this
  have hquot : (msec : ℚ) / 1000 = (k : ℚ) / 2 ^ 3 := by
    rw [hk]
    push_cast
    ring
  have hadd : ((hr * 3600 + min * 60 + sec : Int) : ℚ) + (k : ℚ) / 2 ^ 3 =
      ((8 * (hr * 3600 + min * 60 + sec) + k : Int) : ℚ) / 2 ^ 3 := by
    push_cast
    ring
  rw [ofInt_exact _ hSabs, ofInt_exact _ hmsabs, h1000]
  simp only [Double.div, Double.add, show (1000 : ℚ) ≠ 0 by norm_num, if_false]
  rw [hquot, roundDouble_dyadic k 3 hkabs (by omega)]
  simp only [Double.add]
  rw [hadd, roundDouble_dyadic _ 3 hsum (by omega)]
  congr 1
  push_cast
  ring

theorem getDurationSecs_exact (d : FFmpegDecoder) (s : AVStream) (a : Int) (j : Nat)
    (hs : d.m_videoStream = some s) (hj : j ≤ 52) (hden : s.time_base.den = 2 ^ j)
    (hnum : |s.time_base.num| < 2 ^ 53) (ha : |a| < 2 ^ 53)
    (hprod : |s.time_base.num * a| < 2 ^ 53) :
    d.getDurationSecs a =
      .finite ((s.time_base.num : ℚ) / (s.time_base.den : ℚ) * (a : ℚ)) := by
  have hdenabs : |s.time_base.den| < 2 ^ 53 := by
    rw [hden, abs_of_pos (by positivity)]
    exact pow_lt_pow_right₀ (by norm_num) (by omega)
  have hdne : ((s.time_base.den : Int) : ℚ) ≠ 0 := by
    rw [hden]
    push_cast
    positivity
  have hdq : ((s.time_base.den : Int) : ℚ) = 2 ^ j := by
    rw [hden]
    push_cast
    rfl
  have hmul : (s.time_base.num : ℚ) / 2 ^ j * (a : ℚ) =
      ((s.time_base.num * a : Int) : ℚ) / 2 ^ j := by
    push_cast
    ring
  simp only [FFmpegDecoder.getDurationSecs, hs, av_q2d]
  rw [ofInt_exact _ hnum, ofInt_exact _ hdenabs, ofInt_exact _ ha]
  simp only [Double.div, hdne, if_false]
  rw [hdq, roundDouble_dyadic _ j hnum (by omega)]
  simp only [Double.mul]
  rw [hmul, roundDouble_dyadic _ j hprod (by omega)]

/-! ## The claims about `PlayerDoc.cpp` and `ffmpegdecoder.h` -/

/-- C6: for a subtitle stream whose parsed entries have pairwise disjoint
intervals and for every current time `t` (any number, finite or infinite),
`getSubtitle` returns the text of the entry whose closed interval contains `t`,
returns the empty string when no entry contains `t`, and the result is empty
exactly when no entry covers `t`; with no subtitles loaded the result is
empty. -/
theorem getSubtitle_lookup (overflow : Int → Int) (unordered : SubtitlesMap → Option String)
    (doc : CPlayerDoc) (srt : Option (List String)) (t : Double) (ht : t ≠ .nan)
    (hdis : (parsedEntries overflow srt).Pairwise Segment.Disjoint) :
    (∀ e ∈ parsedEntries overflow srt, e.contains t →
      ({ doc.OpenSubRipFile overflow srt with m_currentTime := t } : CPlayerDoc).getSubtitle
        unordered = e.text) ∧
    ((∀ e ∈ parsedEntries overflow srt, ¬ e.contains t) →
      ({ doc.OpenSubRipFile overflow srt with m_currentTime := t } : CPlayerDoc).getSubtitle
        unordered = "") ∧
    (({ doc.OpenSubRipFile overflow srt with m_currentTime := t } : CPlayerDoc).getSubtitle
        unordered = "" ↔
      ∀ e ∈ parsedEntries overflow srt, ¬ e.contains t) ∧
    (doc.m_subtitles = none → doc.getSubtitle unordered = "") := by
  rw [getSubtitle_of_entries overflow unordered doc srt t ht]
  have hne := parsedEntries_textsNonEmpty overflow srt
  refine ⟨?_, ?_, ?_, ?_⟩
  · intro e he hc
    rcases find_of_pairwise unordered t ht _ hdis with ⟨_, hno⟩ | ⟨e1, _, _, hf, huniq⟩
    · exact absurd hc (hno e he)
    · rw [hf, huniq e he hc]
      rfl
  · intro hno
    rcases find_of_pairwise unordered t ht _ hdis with ⟨hf, _⟩ | ⟨e1, he1, hc1, _, _⟩
    · rw [hf]
      rfl
    · exact absurd hc1 (hno e1 he1)
  · constructor
    · intro hempty
      rcases find_of_pairwise unordered t ht _ hdis with ⟨_, hno⟩ | ⟨e1, he1, _, hf, _⟩
      · exact hno
      · rw [hf] at hempty
        exact absurd hempty (hne e1 he1)
    · intro hno
      rcases find_of_pairwise unordered t ht _ hdis with ⟨hf, _⟩ | ⟨e1, he1, hc1, _, _⟩
      · rw [hf]
        rfl
      · exact absurd hc1 (hno e1 he1)
  · intro hnone
    simp [CPlayerDoc.getSubtitle, hnone]

/-- Witness for C6: in the two-entry sample file the time 3/2 lies in the first
entry, whose text is returned. -/
theorem getSubtitle_lookup_witness :
    (parsedEntries saturate (some sampleFile)).Pairwise Segment.Disjoint ∧
    ({ CPlayerDoc.fresh.OpenSubRipFile saturate (some sampleFile) with
        m_currentTime := .finite (3 / 2) } : CPlayerDoc).getSubtitle notFound = "Hello" := by
  have hdis : (parsedEntries saturate (some sampleFile)).Pairwise Segment.Disjoint := by
    rw [parsedEntries_sampleFile]
    simp only [List.pairwise_cons, List.mem_singleton, forall_eq, List.not_mem_nil,
      false_implies, implies_true, List.Pairwise.nil, and_true]
    intro t ht
    cases t with
    | finite v =>
      simp only [Segment.contains, Double.le] at ht
      linarith [ht.1.2, ht.2.1]
    | infinite s =>
      simp only [Segment.contains, Double.le] at ht
      have h1 := ht.1.1
      have h2 := ht.1.2
      rw [h1] at h2
      exact absurd h2 (by decide)
    | nan => exact ht.1.1
  refine ⟨hdis, ?_⟩
  exact (getSubtitle_lookup saturate notFound CPlayerDoc.fresh (some sampleFile)
    (.finite (3 / 2)) (by decide) hdis).1
    ⟨.finite 1, .finite 2, "Hello"⟩ (by rw [parsedEntries_sampleFile]; simp)
    (by simp only [Segment.contains, Double.le]; norm_num)

/-- C7 (as stated, refuted): in `brokenFile` the second block has a malformed
timestamp line, yet the entry of the first block is loaded and `getSubtitle`
returns its text at time 3/2. -/
theorem malformed_timestamp_counterexample :
    (sscanf saturate timeFormat "00:00:03.000 -> 00:00:04.500".toList).length ≠ 8 ∧
    (CPlayerDoc.fresh.OpenSubRipFile saturate (some brokenFile)).m_subtitles =
      some [⟨.finite 1, .finite 2, "Hello"⟩] ∧
    ({ CPlayerDoc.fresh.OpenSubRipFile saturate (some brokenFile) with
        m_currentTime := .finite (3 / 2) } : CPlayerDoc).getSubtitle notFound = "Hello" := by
  refine ⟨by decide, ?_, ?_⟩
  · rw [OpenSubRipFile_subtitles, parsedEntries_brokenFile]
    simp
  · rw [getSubtitle_of_entries saturate notFound _ _ _ (by decide), parsedEntries_brokenFile]
    simp only [SubtitlesMap.find, Segment.contains, Double.le]
    norm_num

/-- C7 (amended): when the timestamp line of a block does not convert eight
integers, reading stops there: the document is the one obtained from the file
cut before that block, so the entries of the earlier blocks are kept and that
block and all later ones are dropped; when the block is the first one, no
subtitles are loaded and `getSubtitle` is empty at every time. -/
theorem malformed_timestamp_stops_reading (overflow : Int → Int) (doc : CPlayerDoc)
    (bs : List Block) (index bad : String) (rest : List String)
    (hbs : ∀ b ∈ bs, b.Parses overflow)
    (hbad : (sscanf overflow timeFormat bad.toList).length ≠ 8) :
    doc.OpenSubRipFile overflow (some (blocksLines bs ++ index :: bad :: rest)) =
      doc.OpenSubRipFile overflow (some (blocksLines bs)) ∧
    parsedEntries overflow (some (blocksLines bs ++ index :: bad :: rest)) =
      bs.foldl (fun m b => b.store overflow m) [] ∧
    (doc.OpenSubRipFile overflow (some (index :: bad :: rest))).m_subtitles = none ∧
    ∀ (unordered : SubtitlesMap → Option String) (t : Double),
      ({ doc.OpenSubRipFile overflow (some (index :: bad :: rest)) with
        m_currentTime := t } : CPlayerDoc).getSubtitle unordered = "" := by
  have h1 : parseBlocks overflow [] (blocksLines bs ++ index :: bad :: rest) =
      bs.foldl (fun m b => b.store overflow m) [] := by
    rw [parseBlocks_blocks overflow bs hbs, parseBlocks_malformed _ _ _ _ _ hbad]
  have h2 : parseBlocks overflow [] (blocksLines bs) =
      bs.foldl (fun m b => b.store overflow m) [] := by
    have := parseBlocks_blocks overflow bs hbs [] []
    rwa [List.append_nil, parseBlocks_nil] at this
  have h3 : parsedEntries overflow (some (index :: bad :: rest)) = [] := by
    simp [parsedEntries, parseBlocks_malformed _ _ _ _ _ hbad]
  have h4 : (doc.OpenSubRipFile overflow (some (index :: bad :: rest))).m_subtitles = none := by
    rw [OpenSubRipFile_subtitles, h3]
    simp
  refine ⟨?_, h1, h4, ?_⟩
  · simp only [CPlayerDoc.OpenSubRipFile, h1, h2]
  · intro unordered t
    simp only [CPlayerDoc.getSubtitle, h4]

/-- Witness for C7 (amended): `brokenFile` is one good block followed by a block
with a malformed timestamp line. -/
theorem malformed_timestamp_stops_reading_witness :
    CPlayerDoc.fresh.OpenSubRipFile saturate
        (some (blocksLines [⟨"1", "00:00:01,000 --> 00:00:02,000", ["Hello"]⟩] ++
          "2" :: "00:00:03.000 -> 00:00:04.500" ::
            ["World", "", "3", "00:00:05,000 --> 00:00:06,000", "Later"])) =
      CPlayerDoc.fresh.OpenSubRipFile saturate
        (some (blocksLines [⟨"1", "00:00:01,000 --> 00:00:02,000", ["Hello"]⟩])) :=
  (malformed_timestamp_stops_reading saturate CPlayerDoc.fresh
    [⟨"1", "00:00:01,000 --> 00:00:02,000", ["Hello"]⟩] "2" "00:00:03.000 -> 00:00:04.500"
    ["World", "", "3", "00:00:05,000 --> 00:00:06,000", "Later"]
    (by
      intro b hb
      rw [List.mem_singleton] at hb
      subst hb
      exact ⟨by decide, by decide⟩)
    (by decide)).1

/-- C8 (as stated, refuted): a block that ends before it starts stores no entry
at all (the closed interval is empty); for a block with 1193047 hours the
stored lower bound is 1904, not `3600 * 1193047`, which no `int` holds; and for
the times `1,100` and `2,300` the stored bounds are the doubles next to 11/10
and 23/10, not these rationals. -/
theorem subrip_entry_counterexample :
    (sscanf saturate timeFormat "00:00:05,000 --> 00:00:01,000".toList =
        [0, 0, 5, 0, 0, 0, 1, 0] ∧
      (CPlayerDoc.fresh.OpenSubRipFile saturate (some reversedFile)).m_subtitles = none) ∧
    (sscanf saturate timeFormat "1193047:00:00,000 --> 1193047:00:01,000".toList =
        [1193047, 0, 0, 0, 1193047, 0, 1, 0] ∧
      (CPlayerDoc.fresh.OpenSubRipFile saturate (some overflowFile)).m_subtitles =
        some [⟨.finite 1904, .finite 1905, "Hi"⟩] ∧
      (1904 : ℚ) ≠ 3600 * 1193047 + 60 * 0 + 0 + 0 / 1000) ∧
    (sscanf saturate timeFormat "00:00:01,100 --> 00:00:02,300".toList =
        [0, 0, 1, 100, 0, 0, 2, 300] ∧
      (CPlayerDoc.fresh.OpenSubRipFile saturate (some tenthsFile)).m_subtitles =
        some [⟨.finite (2476979795053773 / 2251799813685248),
          .finite (2589569785738035 / 1125899906842624), "Tenths"⟩] ∧
      (2476979795053773 / 2251799813685248 : ℚ) ≠ 3600 * 0 + 60 * 0 + 1 + 100 / 1000 ∧
      (2589569785738035 / 1125899906842624 : ℚ) ≠ 3600 * 0 + 60 * 0 + 2 + 300 / 1000) := by
  refine ⟨⟨by decide, ?_⟩, ⟨by decide, ?_, by norm_num⟩, ⟨by decide, ?_, by norm_num,
    by norm_num⟩⟩
  · rw [OpenSubRipFile_subtitles, parsedEntries_reversedFile]
    simp
  · rw [OpenSubRipFile_subtitles, parsedEntries_overflowFile]
    simp
  · rw [OpenSubRipFile_subtitles, parsedEntries_tenthsFile]
    simp

/-- C8 (amended): for a block made of an index line, a timestamp line that
converts to `h1:m1:s1,ms1 --> h2:m2:s2,ms2`, and one or more non-empty text
lines ended by an empty line or by the end of the file, such that the `int`
sums `h * 3600 + m * 60 + s` do not overflow and the end is not before the
start, the reader adds exactly one entry: the closed interval whose bounds are
the double sums of `h * 3600 + m * 60 + s` and the double quotient `ms / 1000`
(each operation rounded to the nearest double), with the text lines joined by
single newlines; the index line plays no role.  A bound is exactly
`3600 h + 60 m + s + ms / 1000` when `ms` is a multiple of 125. -/
theorem subrip_entry_conversion (overflow : Int → Int) (map : SubtitlesMap)
    (index stamp : String) (texts rest : List String) (h1 m1 s1 ms1 h2 m2 s2 ms2 : Int)
    (hstamp : sscanf overflow timeFormat stamp.toList = [h1, m1, s1, ms1, h2, m2, s2, ms2])
    (htexts : texts ≠ []) (hne : ∀ l ∈ texts, l ≠ "")
    (hstart : NoOverflow h1 m1 s1) (hstop : NoOverflow h2 m2 s2)
    (hle : ¬ Double.lt
      ((Double.ofInt (h2 * 3600 + m2 * 60 + s2)).add ((Double.ofInt ms2).div (Double.ofInt 1000)))
      ((Double.ofInt (h1 * 3600 + m1 * 60 + s1)).add
        ((Double.ofInt ms1).div (Double.ofInt 1000)))) :
    parseBlocks overflow map (index :: stamp :: (texts ++ "" :: rest)) =
      parseBlocks overflow (map ++ [⟨
        (Double.ofInt (h1 * 3600 + m1 * 60 + s1)).add
          ((Double.ofInt ms1).div (Double.ofInt 1000)),
        (Double.ofInt (h2 * 3600 + m2 * 60 + s2)).add
          ((Double.ofInt ms2).div (Double.ofInt 1000)),
        String.intercalate "\n" texts⟩]) rest ∧
    parseBlocks overflow map (index :: stamp :: texts) =
      map ++ [⟨
        (Double.ofInt (h1 * 3600 + m1 * 60 + s1)).add
          ((Double.ofInt ms1).div (Double.ofInt 1000)),
        (Double.ofInt (h2 * 3600 + m2 * 60 + s2)).add
          ((Double.ofInt ms2).div (Double.ofInt 1000)),
        String.intercalate "\n" texts⟩] ∧
    (∀ doc : CPlayerDoc,
      (doc.OpenSubRipFile overflow (some (index :: stamp :: texts))).m_subtitles =
        some [⟨
          (Double.ofInt (h1 * 3600 + m1 * 60 + s1)).add
            ((Double.ofInt ms1).div (Double.ofInt 1000)),
          (Double.ofInt (h2 * 3600 + m2 * 60 + s2)).add
            ((Double.ofInt ms2).div (Double.ofInt 1000)),
          String.intercalate "\n" texts⟩]) ∧
    (InInt32 ms1 → 125 ∣ ms1 →
      (Double.ofInt (h1 * 3600 + m1 * 60 + s1)).add
          ((Double.ofInt ms1).div (Double.ofInt 1000)) =
        .finite (3600 * (h1 : ℚ) + 60 * (m1 : ℚ) + (s1 : ℚ) + (ms1 : ℚ) / 1000)) ∧
    (InInt32 ms2 → 125 ∣ ms2 →
      (Double.ofInt (h2 * 3600 + m2 * 60 + s2)).add
          ((Double.ofInt ms2).div (Double.ofInt 1000)) =
        .finite (3600 * (h2 : ℚ) + 60 * (m2 : ℚ) + (s2 : ℚ) + (ms2 : ℚ) / 1000)) := by
  have hjoin := joinLines_eq_intercalate texts hne
  have hjne := joinLines_ne_empty texts hne htexts
  have hadd : ∀ m : SubtitlesMap,
      addIfText m (toSeconds h1 m1 s1 ms1) (toSeconds h2 m2 s2 ms2) (joinLines "" texts) =
        m ++ [⟨
          (Double.ofInt (h1 * 3600 + m1 * 60 + s1)).add
            ((Double.ofInt ms1).div (Double.ofInt 1000)),
          (Double.ofInt (h2 * 3600 + m2 * 60 + s2)).add
            ((Double.ofInt ms2).div (Double.ofInt 1000)),
          String.intercalate "\n" texts⟩] := by
    intro m
    rw [toSeconds_noOverflow _ _ _ _ hstart, toSeconds_noOverflow _ _ _ _ hstop]
    unfold addIfText SubtitlesMap.add
    rw [if_pos hjne, if_neg (by
      intro hc
      rcases hc with hc | hc
      · exact hle hc
      · exact hjne hc), hjoin]
  have hfile : ∀ m : SubtitlesMap, parseBlocks overflow m (index :: stamp :: texts) =
      m ++ [⟨
        (Double.ofInt (h1 * 3600 + m1 * 60 + s1)).add
          ((Double.ofInt ms1).div (Double.ofInt 1000)),
        (Double.ofInt (h2 * 3600 + m2 * 60 + s2)).add
          ((Double.ofInt ms2).div (Double.ofInt 1000)),
        String.intercalate "\n" texts⟩] := by
    intro m
    rw [parseBlocks_stamp overflow m _ _ _ _ _ _ _ _ _ _ _ hstamp,
      (readText_texts overflow m _ _ texts hne "").2, hadd]
  refine ⟨?_, hfile map, ?_, fun hr hd => toSeconds_exact _ _ _ _ hstart hr hd,
    fun hr hd => toSeconds_exact _ _ _ _ hstop hr hd⟩
  · rw [parseBlocks_stamp overflow map _ _ _ _ _ _ _ _ _ _ _ hstamp,
      (readText_texts overflow map _ _ texts hne "").1 rest, hadd]
  · intro doc
    rw [OpenSubRipFile_subtitles]
    simp only [parsedEntries, hfile []]
    simp

/-- Witness for C8 (amended): the block `7`, `00:01:02,500 --> 01:00:00,250`
with the text lines `one` and `two`. -/
theorem subrip_entry_conversion_witness :
    parseBlocks saturate [] ("7" :: "00:01:02,500 --> 01:00:00,250" :: ["one", "two"]) =
      [] ++ [⟨
        (Double.ofInt (0 * 3600 + 1 * 60 + 2)).add ((Double.ofInt 500).div (Double.ofInt 1000)),
        (Double.ofInt (1 * 3600 + 0 * 60 + 0)).add ((Double.ofInt 250).div (Double.ofInt 1000)),
        String.intercalate "\n" ["one", "two"]⟩] :=
  (subrip_entry_conversion saturate [] "7" "00:01:02,500 --> 01:00:00,250" ["one", "two"] []
    0 1 2 500 1 0 0 250 (by decide) (by decide) (by decide) (by decide) (by decide)
    (by decide!)).2.1

/-- C10: after any sequence of `OpenSubRipFile` and `OnCloseDocument` calls on a
constructed document the subtitle map is null or a non-empty map of non-empty
texts; `OpenSubRipFile` loads the same subtitles whatever was loaded before,
leaves the map null for a missing stream, an empty stream and a stream without
a parsable entry, and `OnCloseDocument` leaves it null. -/
theorem subtitles_state_invariant (overflow : Int → Int) (ops : DecoderOps)
    (decoder : FFmpegDecoder) (time : Double) (calls : List DocOp) (doc : CPlayerDoc)
    (srt : Option (List String)) (previous : Option SubtitlesMap) :
    ((CPlayerDoc.create decoder time).run overflow ops calls).SubtitlesValid ∧
    ({ doc with m_subtitles := previous } : CPlayerDoc).OpenSubRipFile overflow srt =
      doc.OpenSubRipFile overflow srt ∧
    (doc.OpenSubRipFile overflow none).m_subtitles = none ∧
    (doc.OpenSubRipFile overflow (some [])).m_subtitles = none ∧
    (∀ lines, parseBlocks overflow [] lines = [] →
      (doc.OpenSubRipFile overflow (some lines)).m_subtitles = none) ∧
    (doc.OnCloseDocument ops).m_subtitles = none := by
  refine ⟨?_, ?_, ?_, ?_, ?_, ?_⟩
  · apply run_valid
    intro m hm
    simp [CPlayerDoc.create] at hm
  · cases srt <;> rfl
  · rfl
  · simp [CPlayerDoc.OpenSubRipFile, parseBlocks]
  · intro lines h
    simp [CPlayerDoc.OpenSubRipFile, h]
  · rfl

/-- Witness for C10: a stream made of one line that is no SubRip block leaves
the map null, whatever was loaded before. -/
theorem subtitles_state_invariant_witness :
    parseBlocks saturate [] ["no subtitles here"] = [] ∧
    (({ CPlayerDoc.fresh with
        m_subtitles := some [⟨.finite 1, .finite 2, "old"⟩] } : CPlayerDoc).OpenSubRipFile
      saturate (some ["no subtitles here"])).m_subtitles = none :=
  ⟨by simp [parseBlocks],
   (subtitles_state_invariant saturate DecoderOps.failing FFmpegDecoder.idle (.finite 0) []
      ({ CPlayerDoc.fresh with
        m_subtitles := some [⟨.finite 1, .finite 2, "old"⟩] } : CPlayerDoc) none none).2.2.2.2.1
      ["no subtitles here"] (by simp [parseBlocks])⟩

/-- C9: `changedFramePosition` raises `framePositionChanged(frame, total)`
unchanged, then `totalTimeUpdated(getDurationSecs(total))` and
`currentTimeUpdated(getDurationSecs(frame))`, sets the current time to
`getDurationSecs(frame)` and leaves the decoder and the subtitles as they are,
so that a following `getSubtitle` looks up the time `getDurationSecs(frame)`,
which is 0 when no video stream is open. -/
theorem changedFramePosition_effect (unordered : SubtitlesMap → Option String)
    (doc : CPlayerDoc) (frame total : Int) :
    (doc.changedFramePosition frame total).2 =
      [.framePositionChanged frame total,
       .totalTimeUpdated (doc.m_frameDecoder.getDurationSecs total),
       .currentTimeUpdated (doc.m_frameDecoder.getDurationSecs frame)] ∧
    (doc.changedFramePosition frame total).1.m_currentTime =
      doc.m_frameDecoder.getDurationSecs frame ∧
    (doc.changedFramePosition frame total).1.m_subtitles = doc.m_subtitles ∧
    (doc.changedFramePosition frame total).1.m_frameDecoder = doc.m_frameDecoder ∧
    (doc.changedFramePosition frame total).1.getSubtitle unordered =
      (match doc.m_subtitles with
       | some m => (m.find unordered (doc.m_frameDecoder.getDurationSecs frame)).getD ""
       | none => "") ∧
    (doc.m_frameDecoder.m_videoStream = none →
      (doc.changedFramePosition frame total).1.m_currentTime = .finite 0 ∧
      (doc.changedFramePosition frame total).2 =
        [.framePositionChanged frame total, .totalTimeUpdated (.finite 0),
         .currentTimeUpdated (.finite 0)]) := by
  refine ⟨rfl, rfl, rfl, rfl, ?_, ?_⟩
  · unfold CPlayerDoc.getSubtitle CPlayerDoc.changedFramePosition
    cases doc.m_subtitles with
    | none => rfl
    | some m =>
      simp only
      cases m.find unordered (doc.m_frameDecoder.getDurationSecs frame) <;> rfl
  · intro h
    simp [CPlayerDoc.changedFramePosition, FFmpegDecoder.getDurationSecs, h, ofInt_zero]

/-- Witness for C9: with no video stream open, frame 40 of 100 sets the current
time to 0. -/
theorem changedFramePosition_effect_witness :
    CPlayerDoc.fresh.m_frameDecoder.m_videoStream = none ∧
    (CPlayerDoc.fresh.changedFramePosition 40 100).1.m_currentTime = .finite 0 :=
  ⟨rfl, ((changedFramePosition_effect notFound CPlayerDoc.fresh 40 100).2.2.2.2.2 rfl).1⟩

/-- C3 (as stated, refuted): with the time-base 1/25 open, `getDurationSecs(7)`
is the double 1261007895663739 / 2^52 and not 7/25, and the values at 1 and 6
add up, as doubles and as rationals, to something else than the value at 7. -/
theorem getDurationSecs_counterexample :
    FFmpegDecoder.pal.getDurationSecs 1 = .finite (5764607523034235 / 144115188075855872) ∧
    FFmpegDecoder.pal.getDurationSecs 6 = .finite (1080863910568919 / 4503599627370496) ∧
    FFmpegDecoder.pal.getDurationSecs 7 = .finite (1261007895663739 / 4503599627370496) ∧
    (1261007895663739 / 4503599627370496 : ℚ) ≠ 1 / 25 * 7 ∧
    (5764607523034235 / 144115188075855872 + 1080863910568919 / 4503599627370496 : ℚ) ≠
      1261007895663739 / 4503599627370496 ∧
    (FFmpegDecoder.pal.getDurationSecs 1).add (FFmpegDecoder.pal.getDurationSecs 6) ≠
      FFmpegDecoder.pal.getDurationSecs 7 := by
  refine ⟨by decide!, by decide!, by decide!, by norm_num, by norm_num, by decide!⟩

/-- C3 (amended): `getDurationSecs` returns 0 for every duration when no video
stream is open; with a stream open it returns the double product of the double
quotient `num / den` and the duration converted to double, each operation
rounded to the nearest double; when that quotient is a finite double the value
at 0 is 0; and the value is exactly `(num / den) * duration` when `den` is a
power of two and `num`, the duration and their product are below `2 ^ 53` in
absolute value. -/
theorem getDurationSecs_value (d : FFmpegDecoder) (a : Int) :
    (d.m_videoStream = none → d.getDurationSecs a = .finite 0) ∧
    (∀ s : AVStream, d.m_videoStream = some s →
      d.getDurationSecs a =
        ((Double.ofInt s.time_base.num).div (Double.ofInt s.time_base.den)).mul
          (Double.ofInt a) ∧
      (∀ q x : ℚ, (Double.ofInt s.time_base.num).div (Double.ofInt s.time_base.den) = .finite q →
        Double.ofInt a = .finite x →
        d.getDurationSecs a = roundDouble (q * x) ∧ d.getDurationSecs 0 = .finite 0) ∧
      (∀ j : Nat, j ≤ 52 → s.time_base.den = 2 ^ j → |s.time_base.num| < 2 ^ 53 →
        |a| < 2 ^ 53 → |s.time_base.num * a| < 2 ^ 53 →
        d.getDurationSecs a =
          .finite ((s.time_base.num : ℚ) / (s.time_base.den : ℚ) * (a : ℚ)))) := by
  constructor
  · intro h
    simp [FFmpegDecoder.getDurationSecs, h, ofInt_zero]
  · intro s hs
    refine ⟨by simp only [FFmpegDecoder.getDurationSecs, hs, av_q2d], ?_,
      fun j hj hden hnum ha hprod => getDurationSecs_exact d s a j hs hj hden hnum ha hprod⟩
    intro q x hq hx
    constructor
    · simp only [FFmpegDecoder.getDurationSecs, hs, av_q2d, hq, hx, Double.mul]
    · simp only [FFmpegDecoder.getDurationSecs, hs, av_q2d, hq, ofInt_zero, Double.mul,
        mul_zero, roundDouble_zero]

/-- Witness for C3 (amended): at 25 frames per second the quotient is the double
next to 1/25, the raw duration 50 converts to 50, and the value at 0 is 0. -/
theorem getDurationSecs_value_witness :
    FFmpegDecoder.pal.m_videoStream = some ⟨⟨1, 25⟩⟩ ∧
    (Double.ofInt 1).div (Double.ofInt 25) =
      .finite (5764607523034235 / 144115188075855872) ∧
    Double.ofInt 50 = .finite 50 ∧
    FFmpegDecoder.pal.getDurationSecs 0 = .finite 0 :=
  ⟨rfl, by decide!, by decide!,
   (((getDurationSecs_value FFmpegDecoder.pal 50).2 ⟨⟨1, 25⟩⟩ rfl).2.1
      (5764607523034235 / 144115188075855872) 50 (by decide!) (by decide!)).2⟩

/-- C5 (as stated, refuted): the base-class open succeeds, the decoder's
`openFile` returns false, and `OnOpenDocument` still returns TRUE: the open
error is not reported to the caller. -/
theorem OnOpenDocument_counterexample :
    (DecoderOps.failing.openFile CPlayerDoc.fresh.m_frameDecoder "movie.avi").1 = false ∧
    (CPlayerDoc.fresh.OnOpenDocument saturate DecoderOps.failing "movie.avi" true none).1 =
      true := by
  constructor <;> rfl

/-- C5 (amended): `OnOpenDocument` returns the result of the base-class open,
whatever `openFile` returns; `play()` is called exactly when the base-class open
succeeded and `openFile` returned true; when `openFile` returns false no
playback is started and the subtitles and the current time are left as they
were. -/
theorem OnOpenDocument_outcome (overflow : Int → Int) (ops : DecoderOps) (doc : CPlayerDoc)
    (path : String) (baseOpen : Bool) (srt : Option (List String)) :
    (doc.OnOpenDocument overflow ops path baseOpen srt).1 = baseOpen ∧
    ((∃ paused, DecoderCall.play paused ∈
        (doc.OnOpenDocument overflow ops path baseOpen srt).2.2) ↔
      baseOpen = true ∧ (ops.openFile doc.m_frameDecoder path).1 = true) ∧
    ((ops.openFile doc.m_frameDecoder path).1 = false →
      (∀ paused, DecoderCall.play paused ∉
        (doc.OnOpenDocument overflow ops path baseOpen srt).2.2) ∧
      (doc.OnOpenDocument overflow ops path baseOpen srt).2.1.m_subtitles = doc.m_subtitles ∧
      (doc.OnOpenDocument overflow ops path baseOpen srt).2.1.m_currentTime =
        doc.m_currentTime) := by
  cases baseOpen with
  | false => simp [CPlayerDoc.OnOpenDocument]
  | true =>
    cases h : (ops.openFile doc.m_frameDecoder path).1 with
    | false => simp [CPlayerDoc.OnOpenDocument, h]
    | true => simp [CPlayerDoc.OnOpenDocument, h]

/-- Witness for C5 (amended): with a decoder that cannot open the file no
playback is started and the subtitles are left as they were. -/
theorem OnOpenDocument_outcome_witness :
    (DecoderOps.failing.openFile CPlayerDoc.fresh.m_frameDecoder "movie.avi").1 = false ∧
    (CPlayerDoc.fresh.OnOpenDocument saturate DecoderOps.failing "movie.avi" true
      (some sampleFile)).2.1.m_subtitles = CPlayerDoc.fresh.m_subtitles :=
  ⟨rfl, ((OnOpenDocument_outcome saturate DecoderOps.failing CPlayerDoc.fresh "movie.avi" true
    (some sampleFile)).2.2 rfl).2.1⟩

/-! ## The claims about the packet queue and the playback controller -/

theorem bytesOf_append (ps : List Packet) (p : Packet) :
    bytesOf (ps ++ [p]) = bytesOf ps + p.size := by
  simp [bytesOf]

theorem push_inserted (q : PacketQueue) (p : Packet) (hs : q.stopped = false)
    (hroom : q.total_bytes < MAX_QUEUE_SIZE) :
    q.push p = (.inserted,
      { q with items := q.items ++ [p], total_bytes := q.total_bytes + p.size }) := by
  simp [PacketQueue.push, hs, Nat.not_le.mpr hroom]

theorem push_refused (q : PacketQueue) (p : Packet)
    (h : q.stopped = true ∨ MAX_QUEUE_SIZE ≤ q.total_bytes) :
    (q.push p).2 = q ∧ (q.push p).1 ≠ .inserted := by
  unfold PacketQueue.push
  by_cases hs : q.stopped = true
  · simp [hs]
  · have hfull : q.total_bytes ≥ MAX_QUEUE_SIZE := by
      rcases h with h | h
      · exact absurd h hs
      · exact h
    simp [hs, hfull]

theorem pop_packet (q : PacketQueue) (p : Packet) (rest : List Packet)
    (hs : q.stopped = false) (hq : q.items = p :: rest) :
    q.pop = (.packet p, { q with items := rest, total_bytes := q.total_bytes - p.size }) := by
  simp [PacketQueue.pop, hs, hq]

theorem pop_refused (q : PacketQueue) (h : q.stopped = true ∨ q.items = []) :
    q.pop.2 = q ∧ ∀ p, q.pop.1 ≠ .packet p := by
  unfold PacketQueue.pop
  by_cases hs : q.stopped = true
  · simp [hs]
  · have hq : q.items = [] := by
      rcases h with h | h
      · exact absurd h hs
      · exact h
    simp [hs, hq]

theorem outstanding_skip (acc : List Packet) (op : QueueOp) (r : QueueResult)
    (h : List (QueueOp × QueueResult))
    (hpush : ∀ p, op = .push p → r ≠ .inserted) (hpop : op = .pop → ∀ p, r ≠ .packet p)
    (hflush : op ≠ .flush) :
    outstanding acc ((op, r) :: h) = outstanding acc h := by
  cases op with
  | push p =>
    cases r with
    | inserted => exact absurd rfl (hpush p rfl)
    | packet y => simp [outstanding]
    | blocked => simp [outstanding]
    | queueStopped => simp [outstanding]
    | done => simp [outstanding]
  | pop =>
    cases r with
    | packet y => exact absurd rfl (hpop rfl y)
    | inserted => simp [outstanding]
    | blocked => simp [outstanding]
    | queueStopped => simp [outstanding]
    | done => simp [outstanding]
  | flush => exact absurd rfl hflush
  | stop => cases r <;> simp [outstanding]

theorem run_cons (q : PacketQueue) (op : QueueOp) (ops : List QueueOp) :
    q.run (op :: ops) = ((op, (q.step op).1) :: ((q.step op).2.run ops).1,
      ((q.step op).2.run ops).2) := rfl

theorem run_queueInv (B : Nat) (ops : List QueueOp) :
    ∀ (q : PacketQueue) (acc : List Packet), QueueInv B q acc →
      (∀ p, QueueOp.push p ∈ ops → p.size ≤ B) →
      QueueInv B (q.run ops).2 (outstanding acc (q.run ops).1) := by
  induction ops with
  | nil => intro q acc h _; simpa [PacketQueue.run, outstanding] using h
  | cons op ops ih =>
    intro q acc hinv hB
    obtain ⟨hitems, hbytes, hcap⟩ := hinv
    have hB2 : ∀ p, QueueOp.push p ∈ ops → p.size ≤ B := fun p hp => hB p (by simp [hp])
    rw [run_cons]
    cases op with
    | push p =>
      have hp : p.size ≤ B := hB p (by simp)
      by_cases hadmit : q.stopped = false ∧ q.total_bytes < MAX_QUEUE_SIZE
      · simp only [PacketQueue.step, push_inserted q p hadmit.1 hadmit.2, outstanding]
        apply ih _ _ _ hB2
        refine ⟨by simp [hitems], by simp [bytesOf_append, hbytes], ?_⟩
        have := hadmit.2
        simp only
        omega
      · have hr : q.stopped = true ∨ MAX_QUEUE_SIZE ≤ q.total_bytes := by
          by_cases hs : q.stopped = true
          · exact Or.inl hs
          · right
            have hs2 : q.stopped = false := by simpa using hs
            exact Nat.le_of_not_lt (fun hlt => hadmit ⟨hs2, hlt⟩)
        have h2 := push_refused q p hr
        simp only [PacketQueue.step]
        rw [outstanding_skip acc _ _ _ (fun _ _ => h2.2) (fun hc => by cases hc)
          (fun hc => by cases hc), h2.1]
        exact ih q acc ⟨hitems, hbytes, hcap⟩ hB2
    | pop =>
      by_cases hgive : q.stopped = false ∧ q.items ≠ []
      · obtain ⟨hs, hne⟩ := hgive
        cases hq : q.items with
        | nil => exact absurd hq hne
        | cons p rest =>
          simp only [PacketQueue.step, pop_packet q p rest hs hq, outstanding]
          apply ih _ _ _ hB2
          have hacc : acc = p :: rest := by rw [← hitems, hq]
          subst hacc
          refine ⟨by simp, ?_, ?_⟩
          · simp only [List.erase_cons_head, hbytes, bytesOf, List.map_cons, List.sum_cons]
            omega
          · simp only
            omega
      · have hr : q.stopped = true ∨ q.items = [] := by
          by_cases hs : q.stopped = true
          · exact Or.inl hs
          · right
            have hs2 : q.stopped = false := by simpa using hs
            by_contra hne
            exact hgive ⟨hs2, hne⟩
        have h2 := pop_refused q hr
        simp only [PacketQueue.step]
        rw [outstanding_skip acc _ _ _ (fun _ hc => by cases hc) (fun _ => h2.2)
          (fun hc => by cases hc), h2.1]
        exact ih q acc ⟨hitems, hbytes, hcap⟩ hB2
    | flush =>
      simp only [PacketQueue.step, PacketQueue.flush, outstanding]
      apply ih _ _ _ hB2
      refine ⟨rfl, by simp [bytesOf], ?_⟩
      simp only [MAX_QUEUE_SIZE]
      omega
    | stop =>
      simp only [PacketQueue.step, PacketQueue.stop]
      rw [outstanding_skip acc _ _ _ (fun _ hc => by cases hc) (fun hc => by cases hc)
        (fun hc => by cases hc)]
      apply ih _ _ _ hB2
      exact ⟨hitems, hbytes, hcap⟩

theorem outstanding_pushed (ops : List QueueOp) :
    ∀ (q : PacketQueue) (acc : List Packet) (p : Packet),
      p ∈ outstanding acc (q.run ops).1 → p ∈ acc ∨ QueueOp.push p ∈ ops := by
  induction ops with
  | nil => intro q acc p h; left; simpa [PacketQueue.run, outstanding] using h
  | cons op ops ih =>
    intro q acc p h
    have step : ∀ (q2 : PacketQueue) (acc2 : List Packet),
        p ∈ outstanding acc2 (q2.run ops).1 →
        (p ∈ acc2 → p ∈ acc ∨ QueueOp.push p = op) → p ∈ acc ∨ QueueOp.push p ∈ op :: ops := by
      intro q2 acc2 h2 hacc
      rcases ih q2 acc2 p h2 with h3 | h3
      · rcases hacc h3 with h4 | h4
        · exact Or.inl h4
        · exact Or.inr (by simp [h4])
      · exact Or.inr (by simp [h3])
    cases op with
    | push x =>
      simp only [PacketQueue.run, PacketQueue.step] at h
      cases hr : (q.push x).1 with
      | inserted =>
        rw [hr] at h
        simp only [outstanding] at h
        refine step _ _ h ?_
        intro hm
        rw [List.mem_append, List.mem_singleton] at hm
        rcases hm with hm | hm
        · exact Or.inl hm
        · exact Or.inr (by rw [hm])
      | packet y => rw [hr] at h; exact step _ _ h Or.inl
      | blocked => rw [hr] at h; exact step _ _ h Or.inl
      | queueStopped => rw [hr] at h; exact step _ _ h Or.inl
      | done => rw [hr] at h; exact step _ _ h Or.inl
    | pop =>
      simp only [PacketQueue.run, PacketQueue.step] at h
      cases hr : q.pop.1 with
      | packet y =>
        rw [hr] at h
        simp only [outstanding] at h
        exact step _ _ h (fun hm => Or.inl (List.mem_of_mem_erase hm))
      | inserted => rw [hr] at h; exact step _ _ h Or.inl
      | blocked => rw [hr] at h; exact step _ _ h Or.inl
      | queueStopped => rw [hr] at h; exact step _ _ h Or.inl
      | done => rw [hr] at h; exact step _ _ h Or.inl
    | flush =>
      simp only [PacketQueue.run, PacketQueue.step, outstanding] at h
      exact step _ _ h (fun hm => by simp at hm)
    | stop =>
      simp only [PacketQueue.run, PacketQueue.step, PacketQueue.stop, outstanding] at h
      exact step _ _ h Or.inl

/-- C1 (as stated, refuted): starting from the empty queue, a packet of
`MAX_QUEUE_SIZE - 1` bytes and then one of 4096 bytes are both admitted (the
byte total is below the cap before each push), after which `total_bytes`
exceeds `MAX_QUEUE_SIZE`. -/
theorem packet_queue_counterexample :
    (PacketQueue.empty.run
      [.push ⟨0, 0, MAX_QUEUE_SIZE - 1⟩, .push ⟨0, 1, 4096⟩]).1 =
      [(.push ⟨0, 0, MAX_QUEUE_SIZE - 1⟩, .inserted), (.push ⟨0, 1, 4096⟩, .inserted)] ∧
    MAX_QUEUE_SIZE <
      (PacketQueue.empty.run
        [.push ⟨0, 0, MAX_QUEUE_SIZE - 1⟩, .push ⟨0, 1, 4096⟩]).2.total_bytes := by
  constructor <;> decide

/-- C1 (amended): starting from the empty queue, after any finite sequence of
push, pop, flush and stop calls whose pushed packets have at most `B` bytes, a
push is admitted only while `total_bytes < MAX_QUEUE_SIZE`, `total_bytes` is the
sum of the sizes of the queued packets and stays below `MAX_QUEUE_SIZE + B`, and
a packet returned by `pop` is the oldest packet that was pushed earlier and
neither popped nor flushed since. -/
theorem packet_queue_bounded (ops : List QueueOp) (B : Nat)
    (hB : ∀ p, QueueOp.push p ∈ ops → p.size ≤ B) :
    (PacketQueue.empty.run ops).2.total_bytes < MAX_QUEUE_SIZE + B ∧
    (PacketQueue.empty.run ops).2.total_bytes = bytesOf (PacketQueue.empty.run ops).2.items ∧
    (∀ p, ((PacketQueue.empty.run ops).2.push p).1 = .inserted →
      (PacketQueue.empty.run ops).2.total_bytes < MAX_QUEUE_SIZE) ∧
    (∀ p, (PacketQueue.empty.run ops).2.pop.1 = .packet p →
      (outstanding [] (PacketQueue.empty.run ops).1).head? = some p ∧
      p ∈ outstanding [] (PacketQueue.empty.run ops).1 ∧ QueueOp.push p ∈ ops) := by
  have hinv := run_queueInv B ops PacketQueue.empty []
    ⟨rfl, rfl, by simp only [PacketQueue.empty, MAX_QUEUE_SIZE]; omega⟩ hB
  obtain ⟨hitems, hbytes, hcap⟩ := hinv
  refine ⟨hcap, by rw [hbytes, hitems], ?_, ?_⟩
  · intro p hp
    by_contra hfull
    exact (push_refused _ p (Or.inr (Nat.le_of_not_lt hfull))).2 hp
  · intro p hp
    have hhead : (outstanding [] (PacketQueue.empty.run ops).1).head? = some p := by
      rw [← hitems]
      by_cases hgive : (PacketQueue.empty.run ops).2.stopped = false ∧
          (PacketQueue.empty.run ops).2.items ≠ []
      · cases hq : (PacketQueue.empty.run ops).2.items with
        | nil => exact absurd hq hgive.2
        | cons x rest =>
          rw [pop_packet _ x rest hgive.1 hq] at hp
          simp only [QueueResult.packet.injEq] at hp
          simp [hp]
      · have hr : (PacketQueue.empty.run ops).2.stopped = true ∨
            (PacketQueue.empty.run ops).2.items = [] := by
          by_cases hs : (PacketQueue.empty.run ops).2.stopped = true
          · exact Or.inl hs
          · right
            have hs2 : (PacketQueue.empty.run ops).2.stopped = false := by simpa using hs
            by_contra hne
            exact hgive ⟨hs2, hne⟩
        exact absurd hp ((pop_refused _ hr).2 p)
    have hmem : p ∈ outstanding [] (PacketQueue.empty.run ops).1 :=
      List.mem_of_mem_head? hhead
    refine ⟨hhead, hmem, ?_⟩
    rcases outstanding_pushed ops PacketQueue.empty [] p hmem with h | h
    · simp at h
    · exact h

/-- Witness for C1 (amended): two packets of 4096 bytes are pushed, one is
popped, the queue is flushed and a third one pushed; the byte total stays
below the cap plus 4096. -/
theorem packet_queue_bounded_witness :
    (PacketQueue.empty.run
      [.push ⟨0, 0, 4096⟩, .push ⟨1, 0, 4096⟩, .pop, .flush, .push ⟨0, 1, 4096⟩]).2.total_bytes
      < MAX_QUEUE_SIZE + 4096 :=
  (packet_queue_bounded
    [.push ⟨0, 0, 4096⟩, .push ⟨1, 0, 4096⟩, .pop, .flush, .push ⟨0, 1, 4096⟩] 4096
    (by
      intro p hp
      simp only [List.mem_cons, QueueOp.push.injEq, List.mem_singleton, reduceCtorEq,
        false_or, or_false, List.not_mem_nil] at hp
      rcases hp with h | h | h <;> rw [h])).1

/-- C4: for every pipeline state, `close()` reports no error and leaves the
pipeline Closed, a second `close()` right after it changes nothing and reports
no error, and `close()` on a Closed pipeline is a no-op. -/
theorem close_idempotent (p : Pipeline) :
    p.close.1 = .ok ∧ p.close.2.state = .Closed ∧
    p.close.2.close = (.ok, p.close.2) ∧
    (p.state = .Closed → p.close = (.ok, p)) ∧
    (p.state ≠ .Closed → p.close.2.workers = [] ∧ p.close.2.resources = false ∧
      p.close.2.videoPackets = PacketQueue.empty ∧
      p.close.2.audioPackets = PacketQueue.empty ∧ p.close.2.frames = []) := by
  by_cases h : p.state = .Closed
  · simp [Pipeline.close, h]
  · simp [Pipeline.close, h, Pipeline.release, Pipeline.joinWorkers, Pipeline.signalStop]

/-- Witness for C4: closing the playing pipeline joins its workers, and closing
the result again gives the same pipeline. -/
theorem close_idempotent_witness :
    Pipeline.playing.state ≠ .Closed ∧ Pipeline.playing.close.2.workers = [] ∧
    Pipeline.playing.close.2.close = (.ok, Pipeline.playing.close.2) :=
  ⟨by decide, ((close_idempotent Pipeline.playing).2.2.2.2 (by decide)).1,
   (close_idempotent Pipeline.playing).2.2.1⟩

end FFmpegPlayer
